import Mathlib

/-!
Verification of the handwritten-text-recognition pipeline (`src/main.py`).

The development shallowly embeds:

* `check_file_access` — the three-step file access validation;
* `OCRProcessor.process_image` — access check, decode, grayscale,
  1×1 dilation/erosion, fixed-128 + Otsu binarization, OCR delegation,
  and the uniform `RuntimeError` wrapping;
* `OCRProcessor.save_to_pdf` — output-directory creation and the
  timestamped `converted_<YYYYMMDD_HHMMSS>.pdf` artifact;
* `OCRProcessor.calculate_similarity` — which delegates to CPython's
  `difflib.SequenceMatcher(None, text1, text2).ratio() * 100`.  The
  `SequenceMatcher` algorithm (`__chain_b` with the autojunk popularity
  heuristic, `find_longest_match` with its `j2len` dynamic-programming
  loop and the four extension loops, `get_matching_blocks`, `ratio`)
  is embedded faithfully; Python floats are modelled as exact rationals.

A separate reference definition (`refMatched`, `refSimilarity`) follows the
specification's words: recursively find the longest common contiguous run,
recurse on the unmatched left and right remainders, sum the matched lengths,
and take `ratio = 2 * matched / (len(reference) + len(candidate))`.
-/

namespace HTR

/-- A text is its sequence of characters. -/
abbrev Text := List Char

/-- `s[i]` on the character sequence (indices used by the code are in range;
out-of-range reads return an arbitrary fixed character). -/
def nth (s : Text) (i : Nat) : Char := s.getD i (Char.ofNat 0)

/-- `b2j` before junk removal: for each element of `b`, the ascending list of
indices at which it occurs (difflib `__chain_b`: `b2j[elt] = indices`). -/
def b2jRaw (b : Text) (c : Char) : List Nat :=
  (List.range b.length).filter fun j => nth b j = c

/-- The autojunk popularity heuristic of `SequenceMatcher.__chain_b`
(with `isjunk = None`, `autojunk = True`): when `len(b) >= 200`, elements
with more than `len(b) // 100 + 1` occurrences are "popular" and are deleted
from `b2j`. -/
def popular (b : Text) (c : Char) : Bool :=
  decide (200 ≤ b.length) && decide (b.length / 100 + 1 < (b2jRaw b c).length)

/-- The `b2j` table actually consulted by `find_longest_match`:
occurrence lists with popular elements removed. -/
def b2j (b : Text) (c : Char) : List Nat :=
  if popular b c then [] else b2jRaw b c

/-- With `isjunk = None`, the junk set `bjunk` of `SequenceMatcher` is empty
(popular elements are dropped from `b2j` but are not junk). -/
def isbjunk (_ : Char) : Bool := false

/-- The running `besti, bestj, bestsize` triple of `find_longest_match`. -/
structure Best where
  besti : Nat
  bestj : Nat
  bestsize : Nat
  deriving Repr, DecidableEq

/-- Inner loop of `find_longest_match` over `b2j[a[i]]`:
`continue` on `j < blo`, `break` on `j >= bhi`, otherwise
`k = newj2len[j] = j2len.get(j-1, 0) + 1` (in Python, key `-1` is absent,
hence the `j = 0` guard) and the best triple is updated on strict
improvement.  Python's `i-k+1, j-k+1` over the integers is written
`i+1-k, j+1-k` so that truncated subtraction agrees with it (chains never
exceed `i+1` resp. `j+1` elements). -/
def innerLoop (blo bhi : Nat) (j2len : Nat → Nat) (i : Nat) :
    List Nat → (Nat → Nat) → Best → (Nat → Nat) × Best
  | [], newj2len, best => (newj2len, best)
  | j :: js, newj2len, best =>
    if j < blo then innerLoop blo bhi j2len i js newj2len best
    else if bhi ≤ j then (newj2len, best)
    else
      let k := (if j = 0 then 0 else j2len (j - 1)) + 1
      let newj2len' := fun x => if x = j then k else newj2len x
      let best' : Best :=
        if best.bestsize < k then ⟨i + 1 - k, j + 1 - k, k⟩ else best
      innerLoop blo bhi j2len i js newj2len' best'

/-- Outer loop of `find_longest_match` over `i in range(alo, ahi)`,
threading `j2len` (replaced by `newj2len` after each row) and the best
triple. -/
def outerLoop (a b : Text) (blo bhi : Nat) :
    List Nat → (Nat → Nat) → Best → (Nat → Nat) × Best
  | [], j2len, best => (j2len, best)
  | i :: is, j2len, best =>
    let s := innerLoop blo bhi j2len i (b2j b (nth a i)) (fun _ => 0) best
    outerLoop a b blo bhi is s.1 s.2

/-- `[alo, alo+1, ..., ahi-1]`. -/
def rangeList (alo ahi : Nat) : List Nat :=
  (List.range (ahi - alo)).map (alo + ·)

/-- First extension loop, with an explicit iteration budget (each pass
decrements `besti`, so a budget of `besti` is exact; the loop guard
`alo < besti` can never hold once the budget is exhausted, because then
`besti = 0`). -/
def extendLowerGo (a b : Text) (alo blo : Nat) : Nat → Best → Best
  | 0, m => m
  | fuel + 1, ⟨bi, bj, bs⟩ =>
    if alo < bi ∧ blo < bj ∧ isbjunk (nth b (bj - 1)) = false ∧
        nth a (bi - 1) = nth b (bj - 1) then
      extendLowerGo a b alo blo fuel ⟨bi - 1, bj - 1, bs + 1⟩
    else ⟨bi, bj, bs⟩

/-- First extension loop: extend the match downwards over equal,
non-junk elements (`while besti > alo and bestj > blo and ...`). -/
def extendLower (a b : Text) (alo blo : Nat) (m : Best) : Best :=
  extendLowerGo a b alo blo m.besti m

/-- Second extension loop, with an explicit iteration budget (each pass
increments `bestsize`, so a budget of `ahi - (besti + bestsize)` is exact;
the guard `besti + bestsize < ahi` fails once it is exhausted). -/
def extendUpperGo (a b : Text) (ahi bhi : Nat) : Nat → Best → Best
  | 0, m => m
  | fuel + 1, ⟨bi, bj, bs⟩ =>
    if bi + bs < ahi ∧ bj + bs < bhi ∧ isbjunk (nth b (bj + bs)) = false ∧
        nth a (bi + bs) = nth b (bj + bs) then
      extendUpperGo a b ahi bhi fuel ⟨bi, bj, bs + 1⟩
    else ⟨bi, bj, bs⟩

/-- Second extension loop: extend the match upwards over equal,
non-junk elements. -/
def extendUpper (a b : Text) (ahi bhi : Nat) (m : Best) : Best :=
  extendUpperGo a b ahi bhi (ahi - (m.besti + m.bestsize)) m

/-- Third extension loop (downwards over equal junk elements). -/
def extendLowerJunkGo (a b : Text) (alo blo : Nat) : Nat → Best → Best
  | 0, m => m
  | fuel + 1, ⟨bi, bj, bs⟩ =>
    if alo < bi ∧ blo < bj ∧ isbjunk (nth b (bj - 1)) = true ∧
        nth a (bi - 1) = nth b (bj - 1) then
      extendLowerJunkGo a b alo blo fuel ⟨bi - 1, bj - 1, bs + 1⟩
    else ⟨bi, bj, bs⟩

/-- Third extension loop: extend downwards over equal junk elements. -/
def extendLowerJunk (a b : Text) (alo blo : Nat) (m : Best) : Best :=
  extendLowerJunkGo a b alo blo m.besti m

/-- Fourth extension loop (upwards over equal junk elements). -/
def extendUpperJunkGo (a b : Text) (ahi bhi : Nat) : Nat → Best → Best
  | 0, m => m
  | fuel + 1, ⟨bi, bj, bs⟩ =>
    if bi + bs < ahi ∧ bj + bs < bhi ∧ isbjunk (nth b (bj + bs)) = true ∧
        nth a (bi + bs) = nth b (bj + bs) then
      extendUpperJunkGo a b ahi bhi fuel ⟨bi, bj, bs + 1⟩
    else ⟨bi, bj, bs⟩

/-- Fourth extension loop: extend upwards over equal junk elements. -/
def extendUpperJunk (a b : Text) (ahi bhi : Nat) (m : Best) : Best :=
  extendUpperJunkGo a b ahi bhi (ahi - (m.besti + m.bestsize)) m

/-- `SequenceMatcher.find_longest_match(alo, ahi, blo, bhi)`:
the dynamic-programming loop followed by the four extension loops. -/
def find_longest_match (a b : Text) (alo ahi blo bhi : Nat) : Best :=
  let s := outerLoop a b blo bhi (rangeList alo ahi) (fun _ => 0) ⟨alo, blo, 0⟩
  extendUpperJunk a b ahi bhi
    (extendLowerJunk a b alo blo
      (extendUpper a b ahi bhi
        (extendLower a b alo blo s.2)))

/-- Well-formedness of the running best triple with respect to the search
window: the match lies inside `[alo, ahi) × [blo, bhi)`, and an empty match
still points at the window origin. -/
def okBest (alo ahi blo bhi : Nat) (m : Best) : Prop :=
  alo ≤ m.besti ∧ blo ≤ m.bestj ∧
    (m.bestsize = 0 → m.besti = alo ∧ m.bestj = blo) ∧
    (m.bestsize ≠ 0 → m.besti + m.bestsize ≤ ahi ∧ m.bestj + m.bestsize ≤ bhi)

/-- Invariant on a `j2len` row: every nonzero chain length fits between the
window origins and the row/column indices. -/
def rowInv (alo blo bound : Nat) (f : Nat → Nat) : Prop :=
  ∀ j, f j ≠ 0 → f j + alo ≤ bound ∧ f j + blo ≤ j + 1

/-- Recursive subwindow traversal of `get_matching_blocks`, with an explicit
recursion budget.  Each nonempty match strictly shrinks `(ahi - alo) +
(bhi - blo)` (by `find_longest_match_ok`), so a budget exceeding that
measure never runs out. -/
def matchedSumGo (a b : Text) : Nat → Nat → Nat → Nat → Nat → Nat
  | 0, _, _, _, _ => 0
  | fuel + 1, alo, ahi, blo, bhi =>
    match find_longest_match a b alo ahi blo bhi with
    | ⟨bi, bj, bs⟩ =>
      if bs = 0 then 0
      else
        (if alo < bi ∧ blo < bj then matchedSumGo a b fuel alo bi blo bj else 0)
        + bs
        + (if bi + bs < ahi ∧ bj + bs < bhi then
            matchedSumGo a b fuel (bi + bs) ahi (bj + bs) bhi else 0)

/-- Total size of the matching blocks: `sum(size for _, _, size in
get_matching_blocks())`.  The queue-driven loop of `get_matching_blocks`
visits exactly these recursive subwindows (recursing on the left part only
when both `alo < i` and `blo < j`, and on the right part only when both
`i+k < ahi` and `j+k < bhi`); the traversal order does not affect the sum. -/
def matchedSum (a b : Text) (alo ahi blo bhi : Nat) : Nat :=
  matchedSumGo a b ((ahi - alo) + (bhi - blo) + 1) alo ahi blo bhi

/-- `difflib._calculate_ratio`: `2.0 * matches / length` when `length`
is nonzero, else `1.0` (floats modelled as exact rationals). -/
def calcRatio (nmatch len : Nat) : ℚ :=
  if len = 0 then 1 else 2 * (nmatch : ℚ) / (len : ℚ)

/-- `SequenceMatcher(None, a, b).ratio()`. -/
def seqRatio (a b : Text) : ℚ :=
  calcRatio (matchedSum a b 0 a.length 0 b.length) (a.length + b.length)

/-- `OCRProcessor.calculate_similarity(text1, text2)`:
`SequenceMatcher(None, text1, text2).ratio() * 100`. -/
def calculate_similarity (text1 text2 : String) : ℚ :=
  seqRatio text1.toList text2.toList * 100

/-! ### Reference similarity, from the specification's words

"Recursively find the longest common contiguous run, then recurse on the
unmatched left and right remainders, summing matched lengths;
ratio = `2 * matched / (len(reference) + len(candidate))`."  The longest
common contiguous run of a window is selected by maximal length, ties broken
towards the smallest starting indices. -/
/-- Common-run length scan with an explicit budget (each step increments
`i`, so a budget of `ahi - i` is exact: once it is exhausted, `i < ahi`
fails). -/
def matchFGo (a b : Text) (ahi bhi : Nat) : Nat → Nat → Nat → Nat
  | 0, _, _ => 0
  | fuel + 1, i, j =>
    if i < ahi ∧ j < bhi ∧ nth a i = nth b j then
      matchFGo a b ahi bhi fuel (i + 1) (j + 1) + 1
    else 0

/-- Length of the common run of `a` and `b` starting at `(i, j)`, truncated
to the window `[·, ahi) × [·, bhi)`. -/
def matchF (a b : Text) (ahi bhi : Nat) (i j : Nat) : Nat :=
  matchFGo a b ahi bhi (ahi - i) i j

/-- All positions of the window `[alo, ahi) × [blo, bhi)` in lexicographic
order. -/
def rectGrid (alo ahi blo bhi : Nat) : List (Nat × Nat) :=
  (rangeList alo ahi).flatMap fun i => (rangeList blo bhi).map fun j => (i, j)

/-- Fold selecting the first candidate `(i, j, k)` of strictly maximal
length, recording it as a start position. -/
def selectStart (init : Best) (cs : List (Nat × Nat × Nat)) : Best :=
  cs.foldl (fun best c =>
    if best.bestsize < c.2.2 then ⟨c.1, c.2.1, c.2.2⟩ else best) init

/-- The longest common contiguous run of the window: maximal run length,
earliest start in `a`, then earliest start in `b`. -/
def refFind (a b : Text) (alo ahi blo bhi : Nat) : Best :=
  selectStart ⟨alo, blo, 0⟩
    ((rectGrid alo ahi blo bhi).map fun p => (p.1, p.2, matchF a b ahi bhi p.1 p.2))

/-- Recursive reference decomposition, with an explicit recursion budget
(each nonempty run strictly shrinks `(ahi - alo) + (bhi - blo)` by
`refFind_ok`, so a budget exceeding that measure never runs out). -/
def refMatchedGo (a b : Text) : Nat → Nat → Nat → Nat → Nat → Nat
  | 0, _, _, _, _ => 0
  | fuel + 1, alo, ahi, blo, bhi =>
    match refFind a b alo ahi blo bhi with
    | ⟨bi, bj, bs⟩ =>
      if bs = 0 then 0
      else
        refMatchedGo a b fuel alo bi blo bj + bs +
          refMatchedGo a b fuel (bi + bs) ahi (bj + bs) bhi

/-- Total matched length of the reference algorithm on a window: take the
longest common contiguous run, then recurse on the left and right
remainders. -/
def refMatched (a b : Text) (alo ahi blo bhi : Nat) : Nat :=
  refMatchedGo a b ((ahi - alo) + (bhi - blo) + 1) alo ahi blo bhi

/-- The specification's similarity: reference ratio times 100. -/
def refSimilarity (reference candidate : String) : ℚ :=
  calcRatio
    (refMatched reference.toList candidate.toList
      0 reference.toList.length 0 candidate.toList.length)
    (reference.toList.length + candidate.toList.length) * 100

/-! ### Characterizing the dynamic-programming loop

`chainK a b alo blo i j` is the value the `j2len` table holds at key `j`
after `find_longest_match` has processed row `i`: the length of the longest
common suffix of `a[alo..i+1)` and `b[blo..j+1)` whose `b`-side positions
all carry non-popular elements (rows chain only through `b2j`).  The loop's
best triple is the fold `selectBest` over the candidate ends in iteration
order. -/
def chainK (a b : Text) (alo blo : Nat) (i j : Nat) : Nat :=
  if alo ≤ i ∧ blo ≤ j ∧ j < b.length ∧ nth a i = nth b j ∧
      popular b (nth a i) = false then
    if i = alo ∨ j = blo ∨ i = 0 ∨ j = 0 then 1
    else chainK a b alo blo (i - 1) (j - 1) + 1
  else 0
  termination_by i
  decreasing_by omega

/-- The fold performed on the best triple by the inner loop, one candidate
end `(i, j, k)` at a time (`i+1-k, j+1-k` is the recorded start). -/
def selectBest (init : Best) (cs : List (Nat × Nat × Nat)) : Best :=
  cs.foldl (fun best c =>
    if best.bestsize < c.2.2 then ⟨c.1 + 1 - c.2.2, c.2.1 + 1 - c.2.2, c.2.2⟩
    else best) init

/-- The candidate ends contributed by row `i`, in iteration order. -/
def candRow (a b : Text) (alo blo bhi : Nat) (i : Nat) : List (Nat × Nat × Nat) :=
  ((b2j b (nth a i)).filter fun j => decide (blo ≤ j) && decide (j < bhi)).map
    fun j => (i, j, chainK a b alo blo i j)

/-- All candidate ends of the window, in iteration order. -/
def candList (a b : Text) (alo ahi blo bhi : Nat) : List (Nat × Nat × Nat) :=
  (rangeList alo ahi).flatMap (candRow a b alo blo bhi)

/-! ### Selection of the first maximal candidate -/
/-- Strict lexicographic order on window positions: iteration order of both
the loop's candidate ends and the reference grid of starts. -/
def lexLT (p q : Nat × Nat) : Prop :=
  p.1 < q.1 ∨ (p.1 = q.1 ∧ p.2 < q.2)

/-- The largest length among a candidate list. -/
def candMax (cs : List (Nat × Nat × Nat)) : Nat :=
  cs.foldl (fun m c => max m c.2.2) 0

/-! ### Images and preprocessing

`cv2` images are modelled as pixel functions with explicit dimensions.
A BGR pixel is a `(blue, green, red)` triple of byte values. -/
/-- A decoded colour image (`cv2.imread` result). -/
structure ColorImage where
  h : Nat
  w : Nat
  px : Nat → Nat → Nat × Nat × Nat

/-- A single-channel image. -/
structure GrayImage where
  h : Nat
  w : Nat
  px : Nat → Nat → Nat

/-- Channel values are bytes on the image domain. -/
def ColorImage.wf (img : ColorImage) : Prop :=
  ∀ r < img.h, ∀ c < img.w,
    (img.px r c).1 ≤ 255 ∧ (img.px r c).2.1 ≤ 255 ∧ (img.px r c).2.2 ≤ 255

/-- `cv2.cvtColor(img, cv2.COLOR_BGR2GRAY)`: fixed-point luminance
`(1868*B + 9617*G + 4899*R + 2^13) >> 14` (OpenCV's 14-bit coefficients
for 0.114, 0.587, 0.299). -/
def cvtColorBGR2GRAY (img : ColorImage) : GrayImage :=
  ⟨img.h, img.w, fun r c =>
    (1868 * (img.px r c).1 + 9617 * (img.px r c).2.1 +
      4899 * (img.px r c).2.2 + 8192) / 16384⟩

/-- In-bounds pixel values under a `k×k` structuring element of ones
anchored at its centre (`np.ones((k, k))` with the default anchor). -/
def windowVals (img : GrayImage) (k r c : Nat) : List Nat :=
  (List.range k).flatMap fun di =>
    (List.range k).filterMap fun dj =>
      if k / 2 ≤ r + di ∧ r + di - k / 2 < img.h ∧
          k / 2 ≤ c + dj ∧ c + dj - k / 2 < img.w then
        some (img.px (r + di - k / 2) (c + dj - k / 2))
      else none

/-- `cv2.dilate(img, np.ones((k, k)), iterations=1)`: neighbourhood
maximum. -/
def dilate (k : Nat) (img : GrayImage) : GrayImage :=
  ⟨img.h, img.w, fun r c => (windowVals img k r c).foldl max 0⟩

/-- `cv2.erode(img, np.ones((k, k)), iterations=1)`: neighbourhood
minimum. -/
def erode (k : Nat) (img : GrayImage) : GrayImage :=
  ⟨img.h, img.w, fun r c => (windowVals img k r c).foldl min 255⟩

/-- The image's pixels in row-major order. -/
def pixList (img : GrayImage) : List Nat :=
  (List.range img.h).flatMap fun r => (List.range img.w).map fun c => img.px r c

/-- Otsu's threshold selection, an exact-arithmetic translation of OpenCV's
`getThreshold` for `THRESH_OTSU`: one pass over the 256-bin histogram,
tracking the cumulative mass `Q1` and cumulative weighted sum `S1`; splits
with an empty class are skipped (the exact counterpart of the
`FLT_EPSILON` guards), and the between-class variance
`sigma = q1*q2*(mu1-mu2)^2 = (S1*N - S*Q1)^2 / (N^2 * Q1 * (N - Q1))` is
maximised by cross-multiplied integer comparison (strict improvement, so
the smallest maximising bin wins, as in OpenCV). -/
def otsuThreshold (img : GrayImage) : Nat :=
  let pxs := pixList img
  let n := pxs.length
  let hist : Nat → Nat := fun v => pxs.count v
  let s : Nat := (List.range 256).foldl (fun acc i => acc + i * hist i) 0
  let fin := (List.range 256).foldl
    (fun st i =>
      let q1 := st.1 + hist i
      let s1 := st.2.1 + i * hist i
      if q1 = 0 ∨ n ≤ q1 then (q1, s1, st.2.2)
      else
        let d : Int := (s1 * n : Int) - (s * q1 : Int)
        let num := (d * d).toNat
        let den := q1 * (n - q1)
        if st.2.2.1 * den < num * st.2.2.2.1 then (q1, s1, num, den, i)
        else (q1, s1, st.2.2))
    ((0, 0, 0, 1, 0) : Nat × Nat × Nat × Nat × Nat)
  fin.2.2.2.2

/-- `cv2.threshold(img, thresh, maxval, cv2.THRESH_BINARY + cv2.THRESH_OTSU)`:
with `THRESH_OTSU` set, OpenCV ignores the supplied `thresh` and uses the
Otsu threshold `T`; `THRESH_BINARY` then maps a pixel `p` to `maxval` when
`p > T` and to `0` otherwise. -/
def thresholdBinaryOtsu (img : GrayImage) (thresh maxval : Nat) : GrayImage :=
  let t := otsuThreshold img
  ⟨img.h, img.w, fun r c => if t < img.px r c then maxval else 0⟩

/-- The image-processing stage of `OCRProcessor.process_image`: grayscale,
1×1 dilation, 1×1 erosion, then fixed-128/Otsu binarization. -/
def preprocessPipe (img : ColorImage) : GrayImage :=
  thresholdBinaryOtsu (erode 1 (dilate 1 (cvtColorBGR2GRAY img))) 128 255

/-- The distinct pixel intensities of an image. -/
def distinctVals (img : GrayImage) : List Nat :=
  (pixList img).dedup

/-! ### File-access validation (`check_file_access`) -/
/-- The facts about a path that `check_file_access` consults:
`os.path.exists`, `os.access(·, os.R_OK)`, and `os.stat().st_mode`. -/
structure FileInfo where
  pathExists : Bool
  readable : Bool
  mode : Nat

/-- `stat.S_ISREG`: `(mode & 0o170000) == 0o100000`. -/
def S_ISREG (mode : Nat) : Bool := mode &&& 61440 == 32768

/-- Python's `oct`: `0o` followed by the octal digits. -/
def octString (n : Nat) : String :=
  "0o" ++ String.mk (Nat.toDigits 8 n)

/-- `check_file_access(filename)`: returns the decision together with the
lines printed, in order.  The three checks short-circuit: existence, then
read permission, then (after the diagnostic permission line) regular-file
type. -/
def check_file_access (f : FileInfo) : Bool × List String :=
  if f.pathExists = false then (false, ["File does not exist."])
  else if f.readable = false then
    (false, ["File is not readable. Permission denied."])
  else
    let permLine := "File permissions: " ++ octString f.mode
    if S_ISREG f.mode = false then
      (false, [permLine, "File is not a regular file."])
    else (true, [permLine, "File is accessible and ready for processing."])

/-! ### `process_image`

The decode step (`cv2.imread`) and the recognition engine
(`pytesseract.image_to_string`) are external collaborators: the decode
outcome is an `Option ColorImage` input and the engine is a function
argument that may fail with a message.  Every failure inside the `try`
block is re-raised as `RuntimeError(f"Failed to process image: {e}")`. -/
def process_image (f : FileInfo) (decoded : Option ColorImage)
    (engine : GrayImage → Except String String) : Except String String :=
  if (check_file_access f).1 = false then
    Except.error ("Failed to process image: " ++ "File is not accessible.")
  else
    match decoded with
    | none => Except.error ("Failed to process image: " ++
        "Failed to read image. The file may be inaccessible or corrupted.")
    | some img =>
      match engine (preprocessPipe img) with
      | Except.error e => Except.error ("Failed to process image: " ++ e)
      | Except.ok text => Except.ok text

/-! ### `save_to_pdf` -/
/-- A wall-clock timestamp at second resolution (`datetime.now()`). -/
structure Stamp where
  year : Nat
  month : Nat
  day : Nat
  hour : Nat
  minute : Nat
  second : Nat
  deriving DecidableEq

/-- `datetime.strftime("%Y%m%d_%H%M%S")` for in-range fields: four
zero-padded year digits, two digits for each other field. -/
def strftimeYmdHMS (t : Stamp) : String :=
  ⟨[Nat.digitChar (t.year / 1000 % 10), Nat.digitChar (t.year / 100 % 10),
    Nat.digitChar (t.year / 10 % 10), Nat.digitChar (t.year % 10),
    Nat.digitChar (t.month / 10 % 10), Nat.digitChar (t.month % 10),
    Nat.digitChar (t.day / 10 % 10), Nat.digitChar (t.day % 10), '_',
    Nat.digitChar (t.hour / 10 % 10), Nat.digitChar (t.hour % 10),
    Nat.digitChar (t.minute / 10 % 10), Nat.digitChar (t.minute % 10),
    Nat.digitChar (t.second / 10 % 10), Nat.digitChar (t.second % 10)]⟩

/-- Fields printable with `%Y%m%d_%H%M%S` without overflowing the padded
widths. -/
def Stamp.wf (t : Stamp) : Prop :=
  t.year < 10000 ∧ t.month < 100 ∧ t.day < 100 ∧
    t.hour < 100 ∧ t.minute < 100 ∧ t.second < 100

/-- The file system visible to `save_to_pdf`: existing directories and the
files written so far (path and text content). -/
structure FS where
  dirs : List String
  files : List (String × String)

/-- The cumulative path prefixes `[x, x/y, x/y/z, ...]` of the split path
components. -/
def prefixJoins : String → List String → List String
  | acc, [] => [acc]
  | acc, q :: qs => acc :: prefixJoins (acc ++ "/" ++ q) qs

/-- Split a path on `/` (the separator semantics of `str.split("/")`). -/
def splitSlashAux : List Char → List Char → List String
  | [], acc => [⟨acc.reverse⟩]
  | c :: cs, acc =>
    if c = '/' then ⟨acc.reverse⟩ :: splitSlashAux cs []
    else splitSlashAux cs (c :: acc)

/-- The `/`-separated components of a path. -/
def pathParts (p : String) : List String := splitSlashAux p.data []

/-- `os.makedirs(p)`: create `p` and every intermediate directory. -/
def makedirs (p : String) (fs : FS) : FS :=
  { fs with dirs :=
      (match pathParts p with
        | [] => [p]
        | x :: xs => prefixJoins x xs) ++ p :: fs.dirs }

/-- Writing a file replaces any previous file at the same path. -/
def fsWrite (p text : String) (fs : FS) : FS :=
  { fs with files := (p, text) :: fs.files.filter fun e => e.1 ≠ p }

/-- `OCRProcessor.save_to_pdf(text, output_dir)`: ensure the output
directory exists, generate `converted_<YYYYMMDD_HHMMSS>.pdf` from the
write-time timestamp, and write the PDF carrying `text`.  `now` is the
wall clock and `ioErr` stands for an exception raised by the underlying
directory/PDF I/O; any such exception is re-raised as
`RuntimeError(f"Failed to save PDF: {e}")`. -/
def save_to_pdf (fs : FS) (now : Stamp) (ioErr : Option String)
    (text : String) (output_dir : String := "output") :
    Except String (FS × String) :=
  match ioErr with
  | some e => Except.error ("Failed to save PDF: " ++ e)
  | none =>
    let fs1 := if fs.dirs.contains output_dir then fs else makedirs output_dir fs
    let pdf_filename := output_dir ++ "/" ++ "converted_" ++
      strftimeYmdHMS now ++ ".pdf"
    Except.ok (fsWrite pdf_filename text fs1, pdf_filename)

/-- A decodable 1×1 all-black image. -/
def blackPixel : ColorImage := ⟨1, 1, fun _ _ => (0, 0, 0)⟩

/-- The autojunk counterexample text: one `b` then 199 copies of `a`
(length 200, so `a` is popular and is deleted from `b2j`). -/
def cexLong : String := ⟨'b' :: List.replicate 199 'a'⟩

@[simp] theorem mk_besti (x y z : Nat) : (Best.mk x y z).besti = x := rfl

@[simp] theorem mk_bestj (x y z : Nat) : (Best.mk x y z).bestj = y := rfl

@[simp] theorem mk_bestsize (x y z : Nat) : (Best.mk x y z).bestsize = z := rfl

theorem okBest_mk {alo ahi blo bhi bi bj bs : Nat} :
    okBest alo ahi blo bhi ⟨bi, bj, bs⟩ ↔
      alo ≤ bi ∧ blo ≤ bj ∧ (bs = 0 → bi = alo ∧ bj = blo) ∧
        (bs ≠ 0 → bi + bs ≤ ahi ∧ bj + bs ≤ bhi) := by
  simp [okBest]

theorem rowInv_zero {alo blo bound : Nat} : rowInv alo blo bound (fun _ => 0) :=
  fun _ h => absurd rfl h

theorem innerLoop_ok {alo ahi blo bhi : Nat} (j2len : Nat → Nat) (i : Nat)
    (hi : alo ≤ i) (hiu : i < ahi)
    (hlen : rowInv alo blo i j2len) :
    ∀ (js : List Nat) (newj2len : Nat → Nat) (best : Best),
      okBest alo ahi blo bhi best →
      rowInv alo blo (i + 1) newj2len →
      okBest alo ahi blo bhi (innerLoop blo bhi j2len i js newj2len best).2 ∧
      rowInv alo blo (i + 1) (innerLoop blo bhi j2len i js newj2len best).1 := by
  intro js
  induction js with
  | nil => intro newj2len best hb hn; exact ⟨hb, hn⟩
  | cons j js ih =>
    intro newj2len best hb hn
    by_cases h1 : j < blo
    · simpa [innerLoop, h1] using ih newj2len best hb hn
    · by_cases h2 : bhi ≤ j
      · simpa [innerLoop, h1, h2] using ⟨hb, hn⟩
      · have hk1 : (if j = 0 then 0 else j2len (j - 1)) + 1 + alo ≤ i + 1 := by
          by_cases hj0 : j = 0
          · rw [if_pos hj0]; omega
          · rw [if_neg hj0]
            by_cases hz0 : j2len (j - 1) = 0
            · rw [hz0]; omega
            · have := (hlen (j - 1) hz0).1
              omega
        have hk2 : (if j = 0 then 0 else j2len (j - 1)) + 1 + blo ≤ j + 1 := by
          by_cases hj0 : j = 0
          · rw [if_pos hj0]; omega
          · rw [if_neg hj0]
            by_cases hz0 : j2len (j - 1) = 0
            · rw [hz0]; omega
            · have := (hlen (j - 1) hz0).2
              omega
        have hstep := ih (fun x => if x = j then
            (if j = 0 then 0 else j2len (j - 1)) + 1 else newj2len x)
          (if best.bestsize < (if j = 0 then 0 else j2len (j - 1)) + 1 then
            ⟨i + 1 - ((if j = 0 then 0 else j2len (j - 1)) + 1),
             j + 1 - ((if j = 0 then 0 else j2len (j - 1)) + 1),
             (if j = 0 then 0 else j2len (j - 1)) + 1⟩ else best)
          (by
            by_cases hlt : best.bestsize < (if j = 0 then 0 else j2len (j - 1)) + 1
            · rw [if_pos hlt, okBest_mk]
              refine ⟨by omega, by omega, by intro hc; omega, by intro hc; omega⟩
            · simpa [hlt] using hb)
          (by
            intro x hx0
            dsimp only at hx0 ⊢
            by_cases hx : x = j
            · rw [if_pos hx] at hx0 ⊢
              omega
            · rw [if_neg hx] at hx0 ⊢
              exact hn x hx0)
        simpa [innerLoop, h1, h2] using hstep

theorem mem_rangeList {i alo ahi : Nat} :
    i ∈ rangeList alo ahi ↔ alo ≤ i ∧ i < ahi := by
  simp only [rangeList, List.mem_map, List.mem_range]
  constructor
  · rintro ⟨x, hx, rfl⟩; omega
  · intro hx; exact ⟨i - alo, by omega, by omega⟩

theorem rangeList_pairwise (alo ahi : Nat) :
    (rangeList alo ahi).Pairwise (· < ·) := by
  unfold rangeList
  exact List.pairwise_map.mpr
    ((List.pairwise_lt_range _).imp (fun h => by omega))

theorem outerLoop_ok {a b : Text} {alo ahi blo bhi : Nat} :
    ∀ (is : List Nat) (j2len : Nat → Nat) (best : Best),
      is.Pairwise (· < ·) →
      (∀ i ∈ is, alo ≤ i ∧ i < ahi) →
      (∀ i ∈ is, rowInv alo blo i j2len) →
      okBest alo ahi blo bhi best →
      okBest alo ahi blo bhi (outerLoop a b blo bhi is j2len best).2 := by
  intro is
  induction is with
  | nil => intro j2len best _ _ _ hb; exact hb
  | cons i is ih =>
    intro j2len best hpw hmem hlen hb
    have hi := hmem i (by simp)
    have hstep := @innerLoop_ok alo ahi blo bhi j2len i hi.1 hi.2
      (hlen i (by simp)) (b2j b (nth a i)) (fun _ => 0) best hb
      rowInv_zero
    have hpw' : is.Pairwise (· < ·) := hpw.of_cons
    have hnext : ∀ x ∈ is, i < x := by
      intro x hx; exact List.rel_of_pairwise_cons hpw hx
    rw [outerLoop]
    exact ih _ _ hpw' (fun x hx => hmem x (by simp [hx]))
      (by
        intro x hx j hj0
        have hj := hstep.2 j hj0
        have := hnext x hx
        exact ⟨by omega, by omega⟩)
      hstep.1

theorem extendLowerGo_ok {a b : Text} {alo ahi blo bhi : Nat} :
    ∀ (fuel : Nat) (m : Best), okBest alo ahi blo bhi m →
      okBest alo ahi blo bhi (extendLowerGo a b alo blo fuel m) := by
  intro fuel
  induction fuel with
  | zero => intro m hm; exact hm
  | succ fuel ih =>
    rintro ⟨bi, bj, bs⟩ hm
    rw [extendLowerGo]
    by_cases h : alo < bi ∧ blo < bj ∧ isbjunk (nth b (bj - 1)) = false ∧
        nth a (bi - 1) = nth b (bj - 1)
    · rw [if_pos h]
      refine ih _ ?_
      rw [okBest_mk] at hm ⊢
      obtain ⟨h1, h2, h3, h4⟩ := hm
      obtain ⟨ha1, ha2, -, -⟩ := h
      refine ⟨by omega, by omega, by intro hc; omega, ?_⟩
      intro _
      by_cases hz : bs = 0
      · obtain ⟨hbi, hbj⟩ := h3 hz
        omega
      · have := h4 hz
        omega
    · rwa [if_neg h]

theorem extendLower_ok {a b : Text} {alo ahi blo bhi : Nat}
    (m : Best) (hm : okBest alo ahi blo bhi m) :
    okBest alo ahi blo bhi (extendLower a b alo blo m) :=
  extendLowerGo_ok _ _ hm

theorem extendUpperGo_ok {a b : Text} {alo ahi blo bhi : Nat} :
    ∀ (fuel : Nat) (m : Best), okBest alo ahi blo bhi m →
      okBest alo ahi blo bhi (extendUpperGo a b ahi bhi fuel m) := by
  intro fuel
  induction fuel with
  | zero => intro m hm; exact hm
  | succ fuel ih =>
    rintro ⟨bi, bj, bs⟩ hm
    rw [extendUpperGo]
    by_cases h : bi + bs < ahi ∧ bj + bs < bhi ∧ isbjunk (nth b (bj + bs)) = false ∧
        nth a (bi + bs) = nth b (bj + bs)
    · rw [if_pos h]
      refine ih _ ?_
      rw [okBest_mk] at hm ⊢
      obtain ⟨h1, h2, h3, h4⟩ := hm
      obtain ⟨ha1, ha2, -, -⟩ := h
      exact ⟨by omega, by omega, by intro hc; omega, by intro hc; omega⟩
    · rwa [if_neg h]

theorem extendUpper_ok {a b : Text} {alo ahi blo bhi : Nat}
    (m : Best) (hm : okBest alo ahi blo bhi m) :
    okBest alo ahi blo bhi (extendUpper a b ahi bhi m) :=
  extendUpperGo_ok _ _ hm

theorem extendLowerJunk_eq {a b : Text} {alo blo : Nat} (m : Best) :
    extendLowerJunk a b alo blo m = m := by
  unfold extendLowerJunk
  cases hf : m.besti with
  | zero => rfl
  | succ fuel =>
    obtain ⟨bi, bj, bs⟩ := m
    rw [extendLowerJunkGo]
    simp [isbjunk]

theorem extendUpperJunk_eq {a b : Text} {ahi bhi : Nat} (m : Best) :
    extendUpperJunk a b ahi bhi m = m := by
  unfold extendUpperJunk
  cases hf : ahi - (m.besti + m.bestsize) with
  | zero => rfl
  | succ fuel =>
    obtain ⟨bi, bj, bs⟩ := m
    rw [extendUpperJunkGo]
    simp [isbjunk]

theorem okBest_init {alo ahi blo bhi : Nat} :
    okBest alo ahi blo bhi ⟨alo, blo, 0⟩ := by
  rw [okBest_mk]
  exact ⟨le_refl _, le_refl _, fun _ => ⟨rfl, rfl⟩, fun hc => absurd rfl hc⟩

theorem find_longest_match_ok (a b : Text) (alo ahi blo bhi : Nat) :
    okBest alo ahi blo bhi (find_longest_match a b alo ahi blo bhi) := by
  rw [find_longest_match]
  rw [extendUpperJunk_eq, extendLowerJunk_eq]
  refine extendUpper_ok _ (extendLower_ok _ ?_)
  refine outerLoop_ok _ _ _ (rangeList_pairwise _ _) ?_ ?_ okBest_init
  · intro i hi
    exact mem_rangeList.mp hi
  · intro i _
    exact rowInv_zero

theorem matchFGo_le (a b : Text) (ahi bhi : Nat) :
    ∀ fuel i j, matchFGo a b ahi bhi fuel i j ≤ fuel ∧
      matchFGo a b ahi bhi fuel i j ≤ bhi - j := by
  intro fuel
  induction fuel with
  | zero => intro i j; exact ⟨le_refl _, Nat.zero_le _⟩
  | succ fuel ih =>
    intro i j
    rw [matchFGo]
    by_cases h : i < ahi ∧ j < bhi ∧ nth a i = nth b j
    · rw [if_pos h]
      have := ih (i + 1) (j + 1)
      omega
    · rw [if_neg h]
      omega

theorem matchF_le (a b : Text) (ahi bhi : Nat) :
    ∀ i j, matchF a b ahi bhi i j ≤ ahi - i ∧ matchF a b ahi bhi i j ≤ bhi - j := by
  intro i j
  have := matchFGo_le a b ahi bhi (ahi - i) i j
  rw [matchF]
  omega

theorem selectStart_inv (P : Best → Prop) (cs : List (Nat × Nat × Nat))
    (init : Best) (h0 : P init)
    (hstep : ∀ m c, P m → c ∈ cs → P (if m.bestsize < c.2.2 then ⟨c.1, c.2.1, c.2.2⟩ else m)) :
    P (selectStart init cs) := by
  unfold selectStart
  induction cs generalizing init with
  | nil => exact h0
  | cons c cs ih =>
    rw [List.foldl_cons]
    exact ih _ (hstep init c h0 (by simp)) (fun m d hm hd => hstep m d hm (by simp [hd]))

theorem mem_rectGrid {alo ahi blo bhi i j : Nat} :
    (i, j) ∈ rectGrid alo ahi blo bhi ↔
      alo ≤ i ∧ i < ahi ∧ blo ≤ j ∧ j < bhi := by
  simp only [rectGrid, List.mem_flatMap, List.mem_map, Prod.mk.injEq]
  constructor
  · rintro ⟨x, hx, y, hy, rfl, rfl⟩
    have h1 := mem_rangeList.mp hx
    have h2 := mem_rangeList.mp hy
    exact ⟨h1.1, h1.2, h2.1, h2.2⟩
  · rintro ⟨h1, h2, h3, h4⟩
    exact ⟨i, mem_rangeList.mpr ⟨h1, h2⟩, j, mem_rangeList.mpr ⟨h3, h4⟩, rfl, rfl⟩

theorem refFind_ok (a b : Text) (alo ahi blo bhi : Nat) :
    okBest alo ahi blo bhi (refFind a b alo ahi blo bhi) := by
  unfold refFind
  refine selectStart_inv _ _ _ okBest_init ?_
  intro m c hm hc
  by_cases hlt : m.bestsize < c.2.2
  · rw [if_pos hlt]
    obtain ⟨⟨i, j⟩, hmem, hceq⟩ := List.mem_map.mp hc
    have hb := mem_rectGrid.mp hmem
    have hF := matchF_le a b ahi bhi i j
    have hc1 : c.1 = i := by rw [← hceq]
    have hc2 : c.2.1 = j := by rw [← hceq]
    have hc3 : c.2.2 = matchF a b ahi bhi i j := by rw [← hceq]
    rw [hc3] at hlt
    rw [hc1, hc2, hc3, okBest_mk]
    exact ⟨hb.1, hb.2.2.1, by intro hc0; omega, by intro hc0; omega⟩
  · rwa [if_neg hlt]

theorem mem_b2j {b : Text} {c : Char} {j : Nat} :
    j ∈ b2j b c ↔ popular b c = false ∧ j < b.length ∧ nth b j = c := by
  unfold b2j b2jRaw
  by_cases hp : popular b c
  · simp [hp]
  · simp only [if_neg hp, List.mem_filter, List.mem_range, decide_eq_true_eq]
    constructor
    · rintro ⟨h1, h2⟩
      exact ⟨by simpa using hp, h1, h2⟩
    · rintro ⟨-, h1, h2⟩
      exact ⟨h1, h2⟩

theorem b2j_sorted (b : Text) (c : Char) : (b2j b c).Pairwise (· < ·) := by
  unfold b2j b2jRaw
  by_cases hp : popular b c
  · simp [hp]
  · rw [if_neg hp]
    exact (List.pairwise_lt_range _).filter _

theorem chainK_pos {a b : Text} {alo blo i j : Nat}
    (h : chainK a b alo blo i j ≠ 0) :
    alo ≤ i ∧ blo ≤ j ∧ j < b.length ∧ nth a i = nth b j ∧
      popular b (nth a i) = false := by
  rw [chainK] at h
  by_cases hg : alo ≤ i ∧ blo ≤ j ∧ j < b.length ∧ nth a i = nth b j ∧
      popular b (nth a i) = false
  · exact hg
  · rw [if_neg hg] at h
    exact absurd rfl h

theorem chainK_zero_of_lt_blo {a b : Text} {alo blo i j : Nat}
    (h : j < blo) : chainK a b alo blo i j = 0 := by
  rw [chainK, if_neg]
  intro hg
  omega

theorem chainK_of_mem {a b : Text} {alo blo : Nat} {i j : Nat}
    (hialo : alo ≤ i) (hj : j ∈ b2j b (nth a i)) (hblo : blo ≤ j) :
    chainK a b alo blo i j =
      (if i = alo ∨ j = blo ∨ i = 0 ∨ j = 0 then 0
        else chainK a b alo blo (i - 1) (j - 1)) + 1 := by
  obtain ⟨hpop, hlen, hchar⟩ := mem_b2j.mp hj
  rw [chainK, if_pos ⟨hialo, hblo, hlen, hchar.symm, hpop⟩]
  by_cases hbase : i = alo ∨ j = blo ∨ i = 0 ∨ j = 0
  · rw [if_pos hbase, if_pos hbase]
  · rw [if_neg hbase, if_neg hbase]

/-- The loop's `k = j2len.get(j-1, 0) + 1` (with the previous row's table
holding `chainK` at row `i-1`) computes `chainK` at row `i`. -/
theorem chainK_step {a b : Text} {alo blo : Nat} {i j : Nat}
    (hialo : alo ≤ i) (hj : j ∈ b2j b (nth a i)) (hblo : blo ≤ j) :
    chainK a b alo blo i j =
      (if j = 0 then 0
        else if i = alo then 0 else chainK a b alo blo (i - 1) (j - 1)) + 1 := by
  rw [chainK_of_mem hialo hj hblo]
  congr 1
  by_cases hb : i = alo ∨ j = blo ∨ i = 0 ∨ j = 0
  · rw [if_pos hb]
    by_cases hj0 : j = 0
    · rw [if_pos hj0]
    · rw [if_neg hj0]
      by_cases hia : i = alo
      · rw [if_pos hia]
      · rw [if_neg hia]
        have hjb : j - 1 < blo := by omega
        exact (chainK_zero_of_lt_blo hjb).symm
  · rw [if_neg hb, if_neg (by omega : ¬j = 0), if_neg (by omega : ¬i = alo)]

theorem innerLoop_eq (a b : Text) {alo blo bhi : Nat} (i : Nat) (hialo : alo ≤ i)
    (old : Nat → Nat)
    (hold : ∀ j, j < bhi →
      old j = if i = alo then 0 else chainK a b alo blo (i - 1) j) :
    ∀ (js : List Nat) (acc : Nat → Nat) (best : Best),
      js.Pairwise (· < ·) →
      (∀ j ∈ js, j ∈ b2j b (nth a i)) →
      (innerLoop blo bhi old i js acc best).2
        = selectBest best
            ((js.filter fun j => decide (blo ≤ j) && decide (j < bhi)).map
              fun j => (i, j, chainK a b alo blo i j)) ∧
      ∀ x, (innerLoop blo bhi old i js acc best).1 x
        = if x ∈ js ∧ blo ≤ x ∧ x < bhi then chainK a b alo blo i x
          else acc x := by
  intro js
  induction js with
  | nil =>
    intro acc best _ _
    refine ⟨rfl, ?_⟩
    intro x
    simp [innerLoop]
  | cons j js ih =>
    intro acc best hpw hmem
    have hjs_gt : ∀ y ∈ js, j < y := fun y hy => List.rel_of_pairwise_cons hpw hy
    have hj_not : j ∉ js := fun hc => absurd (hjs_gt j hc) (lt_irrefl j)
    by_cases h1 : j < blo
    · have hcons : innerLoop blo bhi old i (j :: js) acc best
          = innerLoop blo bhi old i js acc best := by
        rw [innerLoop, if_pos h1]
      have hstep := ih acc best hpw.of_cons (fun y hy => hmem y (by simp [hy]))
      have hfil : (j :: js).filter (fun y => decide (blo ≤ y) && decide (y < bhi))
          = js.filter (fun y => decide (blo ≤ y) && decide (y < bhi)) := by
        rw [List.filter_cons_of_neg]
        simp only [Bool.and_eq_true, decide_eq_true_eq]
        omega
      rw [hcons, hfil]
      refine ⟨hstep.1, ?_⟩
      intro x
      rw [hstep.2 x]
      by_cases hxin : x ∈ js ∧ blo ≤ x ∧ x < bhi
      · rw [if_pos hxin, if_pos ⟨List.mem_cons_of_mem j hxin.1, hxin.2⟩]
      · rw [if_neg hxin, if_neg ?_]
        rintro ⟨hor, hrest⟩
        rcases List.mem_cons.mp hor with hh | hh
        · subst hh; omega
        · exact hxin ⟨hh, hrest⟩
    · by_cases h2 : bhi ≤ j
      · have hcons : innerLoop blo bhi old i (j :: js) acc best = (acc, best) := by
          rw [innerLoop, if_neg h1, if_pos h2]
        have hfil : (j :: js).filter (fun y => decide (blo ≤ y) && decide (y < bhi))
            = [] := by
          rw [List.filter_eq_nil_iff]
          intro y hy
          simp only [Bool.and_eq_true, decide_eq_true_eq]
          rcases List.mem_cons.mp hy with hh | hh
          · omega
          · have := hjs_gt y hh
            omega
        rw [hcons, hfil]
        refine ⟨rfl, ?_⟩
        intro x
        rw [if_neg ?_]
        rintro ⟨hor, hrest⟩
        rcases List.mem_cons.mp hor with hh | hh
        · omega
        · have := hjs_gt x hh
          omega
      · -- blo ≤ j < bhi: the candidate at (i, j) is processed
        have hjb2j : j ∈ b2j b (nth a i) := hmem j (by simp)
        have hk : (if j = 0 then 0 else old (j - 1)) + 1
            = chainK a b alo blo i j := by
          rw [chainK_step hialo hjb2j (by omega)]
          congr 1
          by_cases hj0 : j = 0
          · rw [if_pos hj0, if_pos hj0]
          · rw [if_neg hj0, if_neg hj0, hold (j - 1) (by omega)]
        have hcons : innerLoop blo bhi old i (j :: js) acc best
            = innerLoop blo bhi old i js
                (fun x => if x = j then
                  (if j = 0 then 0 else old (j - 1)) + 1 else acc x)
                (if best.bestsize < (if j = 0 then 0 else old (j - 1)) + 1 then
                  ⟨i + 1 - ((if j = 0 then 0 else old (j - 1)) + 1),
                   j + 1 - ((if j = 0 then 0 else old (j - 1)) + 1),
                   (if j = 0 then 0 else old (j - 1)) + 1⟩ else best) := by
          rw [innerLoop, if_neg h1, if_neg h2]
        have hstep := ih (fun x => if x = j then
            (if j = 0 then 0 else old (j - 1)) + 1 else acc x)
          (if best.bestsize < (if j = 0 then 0 else old (j - 1)) + 1 then
            ⟨i + 1 - ((if j = 0 then 0 else old (j - 1)) + 1),
             j + 1 - ((if j = 0 then 0 else old (j - 1)) + 1),
             (if j = 0 then 0 else old (j - 1)) + 1⟩ else best)
          hpw.of_cons (fun y hy => hmem y (by simp [hy]))
        have hfil : (j :: js).filter (fun y => decide (blo ≤ y) && decide (y < bhi))
            = j :: js.filter (fun y => decide (blo ≤ y) && decide (y < bhi)) := by
          rw [List.filter_cons_of_pos]
          simp only [Bool.and_eq_true, decide_eq_true_eq]
          omega
        rw [hcons, hfil]
        constructor
        · rw [hstep.1, List.map_cons]
          show _ = selectBest best ((i, j, chainK a b alo blo i j) :: _)
          unfold selectBest
          rw [List.foldl_cons, ← hk]
        · intro x
          rw [hstep.2 x]
          show (if x ∈ js ∧ blo ≤ x ∧ x < bhi then chainK a b alo blo i x
              else if x = j then (if j = 0 then 0 else old (j - 1)) + 1 else acc x)
            = (if x ∈ j :: js ∧ blo ≤ x ∧ x < bhi then chainK a b alo blo i x
              else acc x)
          by_cases hxj : x = j
          · have hnotin : ¬(x ∈ js ∧ blo ≤ x ∧ x < bhi) :=
              fun hc => hj_not (hxj ▸ hc.1)
            have hcond : x ∈ j :: js ∧ blo ≤ x ∧ x < bhi :=
              ⟨by rw [hxj]; exact List.mem_cons_self j js, by omega, by omega⟩
            rw [if_neg hnotin, if_pos hxj, if_pos hcond, hxj]
            exact hk
          · by_cases hxin : x ∈ js ∧ blo ≤ x ∧ x < bhi
            · have hcond : x ∈ j :: js ∧ blo ≤ x ∧ x < bhi :=
                ⟨List.mem_cons_of_mem j hxin.1, hxin.2⟩
              rw [if_pos hxin, if_pos hcond]
            · have hnot2 : ¬(x ∈ j :: js ∧ blo ≤ x ∧ x < bhi) := by
                rintro ⟨hor, hrest⟩
                rcases List.mem_cons.mp hor with hh | hh
                · exact hxj hh
                · exact hxin ⟨hh, hrest⟩
              rw [if_neg hxin, if_neg hxj, if_neg hnot2]

theorem flatMapCongr {α β : Type} (l : List α) (f g : α → List β)
    (h : ∀ x ∈ l, f x = g x) : l.flatMap f = l.flatMap g := by
  induction l with
  | nil => rfl
  | cons x xs ih =>
    simp only [List.flatMap_cons]
    rw [h x (by simp), ih fun y hy => h y (by simp [hy])]

theorem mapCongr {α β : Type} (l : List α) (f g : α → β)
    (h : ∀ x ∈ l, f x = g x) : l.map f = l.map g := by
  induction l with
  | nil => rfl
  | cons x xs ih =>
    simp only [List.map_cons]
    rw [h x (by simp), ih fun y hy => h y (by simp [hy])]

theorem rangeList_nil {alo ahi : Nat} (h : ahi ≤ alo) : rangeList alo ahi = [] := by
  unfold rangeList
  rw [show ahi - alo = 0 from by omega]
  rfl

theorem rangeList_cons {alo ahi : Nat} (h : alo < ahi) :
    rangeList alo ahi = alo :: rangeList (alo + 1) ahi := by
  unfold rangeList
  obtain ⟨n, hn⟩ : ∃ n, ahi - alo = n + 1 := ⟨ahi - alo - 1, by omega⟩
  rw [hn, show ahi - (alo + 1) = n from by omega, List.range_succ_eq_map,
    List.map_cons, List.map_map]
  congr 1
  refine mapCongr _ _ _ ?_
  intro x _
  show alo + (x + 1) = alo + 1 + x
  omega

theorem outerLoop_eq (a b : Text) (alo blo bhi : Nat) :
    ∀ (fuel ahi i0 : Nat), ahi - i0 ≤ fuel → alo ≤ i0 →
      ∀ (old : Nat → Nat) (best : Best),
      (∀ j, j < bhi →
        old j = if i0 = alo then 0 else chainK a b alo blo (i0 - 1) j) →
      (outerLoop a b blo bhi (rangeList i0 ahi) old best).2
        = selectBest best ((rangeList i0 ahi).flatMap (candRow a b alo blo bhi)) := by
  intro fuel
  induction fuel with
  | zero =>
    intro ahi i0 hle _ old best _
    rw [rangeList_nil (by omega)]
    rfl
  | succ fuel ih =>
    intro ahi i0 hle hialo old best hold
    by_cases hlt : i0 < ahi
    · rw [rangeList_cons hlt]
      have houter : outerLoop a b blo bhi (i0 :: rangeList (i0 + 1) ahi) old best
          = outerLoop a b blo bhi (rangeList (i0 + 1) ahi)
              (innerLoop blo bhi old i0 (b2j b (nth a i0)) (fun _ => 0) best).1
              (innerLoop blo bhi old i0 (b2j b (nth a i0)) (fun _ => 0) best).2 := by
        rw [outerLoop]
      have hinner := innerLoop_eq a b i0 hialo old hold (b2j b (nth a i0))
        (fun _ => 0) best (b2j_sorted b _) (fun j hj => hj)
      have holdnew : ∀ j, j < bhi →
          (innerLoop blo bhi old i0 (b2j b (nth a i0)) (fun _ => 0) best).1 j
            = if i0 + 1 = alo then 0 else chainK a b alo blo (i0 + 1 - 1) j := by
        intro j hj
        rw [if_neg (by omega), show i0 + 1 - 1 = i0 from by omega, hinner.2 j]
        by_cases hc : j ∈ b2j b (nth a i0) ∧ blo ≤ j ∧ j < bhi
        · rw [if_pos hc]
        · rw [if_neg hc]
          by_cases hz : chainK a b alo blo i0 j = 0
          · rw [hz]
          · obtain ⟨hg1, hg2, hg3, hg4, hg5⟩ := chainK_pos hz
            exact absurd ⟨mem_b2j.mpr ⟨hg5, hg3, hg4.symm⟩, hg2, hj⟩ hc
      rw [houter, ih ahi (i0 + 1) (by omega) (by omega) _ _ holdnew, hinner.1,
        List.flatMap_cons]
      show _ = selectBest best (candRow a b alo blo bhi i0 ++ _)
      unfold selectBest candRow
      rw [List.foldl_append]
    · rw [rangeList_nil (by omega)]
      rfl

/-- The dynamic-programming part of `find_longest_match` selects, in
iteration order, the strictly-improving fold over all candidate ends with
their `chainK` lengths. -/
theorem dp_best_eq (a b : Text) (alo ahi blo bhi : Nat) :
    (outerLoop a b blo bhi (rangeList alo ahi) (fun _ => 0) ⟨alo, blo, 0⟩).2
      = selectBest ⟨alo, blo, 0⟩ (candList a b alo ahi blo bhi) :=
  outerLoop_eq a b alo blo bhi (ahi - alo) ahi alo (le_refl _) (le_refl _) _ _
    (fun j _ => by rw [if_pos rfl])

theorem foldl_max_init_le (cs : List (Nat × Nat × Nat)) :
    ∀ v, v ≤ cs.foldl (fun m c => max m c.2.2) v := by
  induction cs with
  | nil => intro v; exact le_refl v
  | cons c cs ih =>
    intro v
    rw [List.foldl_cons]
    exact le_trans (Nat.le_max_left _ _) (ih _)

theorem foldl_max_mem_le {c : Nat × Nat × Nat} {cs : List (Nat × Nat × Nat)} :
    c ∈ cs → ∀ v, c.2.2 ≤ cs.foldl (fun m p => max m p.2.2) v := by
  induction cs with
  | nil => intro hc; cases hc
  | cons d cs ih =>
    intro hc v
    rcases List.mem_cons.mp hc with hh | hh
    · subst hh
      rw [List.foldl_cons]
      exact le_trans (Nat.le_max_right _ _) (foldl_max_init_le _ _)
    · rw [List.foldl_cons]
      exact ih hh _

theorem candMax_le {c : Nat × Nat × Nat} {cs : List (Nat × Nat × Nat)}
    (hc : c ∈ cs) : c.2.2 ≤ candMax cs :=
  foldl_max_mem_le hc 0

theorem foldl_max_cases (cs : List (Nat × Nat × Nat)) :
    ∀ v, cs.foldl (fun m c => max m c.2.2) v = v ∨
      ∃ c ∈ cs, cs.foldl (fun m p => max m p.2.2) v = c.2.2 := by
  induction cs with
  | nil => intro v; exact Or.inl rfl
  | cons c cs ih =>
    intro v
    rw [List.foldl_cons]
    rcases ih (max v c.2.2) with hh | ⟨d, hd, hh⟩
    · rcases max_choice v c.2.2 with hm | hm
      · exact Or.inl (hh.trans hm)
      · exact Or.inr ⟨c, by simp, hh.trans hm⟩
    · exact Or.inr ⟨d, by simp [hd], hh⟩

theorem candMax_attained {cs : List (Nat × Nat × Nat)} (h : candMax cs ≠ 0) :
    ∃ c ∈ cs, c.2.2 = candMax cs := by
  rcases foldl_max_cases cs 0 with hh | ⟨c, hc, hh⟩
  · exact absurd hh h
  · exact ⟨c, hc, hh.symm⟩

/-- First-occurrence split: a list with a member satisfying `P` splits at
the earliest such member. -/
theorem exists_first_split {α : Type} (P : α → Prop) [DecidablePred P] :
    ∀ (L : List α), (∃ c ∈ L, P c) →
      ∃ L1 c L2, L = L1 ++ c :: L2 ∧ P c ∧ ∀ d ∈ L1, ¬P d := by
  intro L
  induction L with
  | nil => rintro ⟨c, hc, -⟩; cases hc
  | cons x L ih =>
    intro hex
    by_cases hx : P x
    · exact ⟨[], x, L, rfl, hx, by intro d hd; cases hd⟩
    · obtain ⟨c, hc, hPc⟩ := hex
      rcases List.mem_cons.mp hc with hh | hh
      · subst hh; exact absurd hPc hx
      · obtain ⟨L1, c', L2, he, hPc', hnot⟩ := ih ⟨c, hh, hPc⟩
        refine ⟨x :: L1, c', L2, by rw [he]; rfl, hPc', ?_⟩
        intro d hd
        rcases List.mem_cons.mp hd with hh2 | hh2
        · subst hh2; exact hx
        · exact hnot d hh2

theorem selectBest_all_le {cs : List (Nat × Nat × Nat)} {m : Best}
    (h : ∀ c ∈ cs, c.2.2 ≤ m.bestsize) : selectBest m cs = m := by
  induction cs with
  | nil => rfl
  | cons c cs ih =>
    unfold selectBest
    rw [List.foldl_cons, if_neg (by have := h c (by simp); omega)]
    exact ih fun d hd => h d (by simp [hd])

theorem selectBest_size_lt {K : Nat} :
    ∀ (cs : List (Nat × Nat × Nat)) (m : Best), m.bestsize < K →
      (∀ c ∈ cs, c.2.2 < K) → (selectBest m cs).bestsize < K := by
  intro cs
  induction cs with
  | nil => intro m hm _; exact hm
  | cons c cs ih =>
    intro m hm hall
    unfold selectBest
    rw [List.foldl_cons]
    by_cases hlt : m.bestsize < c.2.2
    · rw [if_pos hlt]
      exact ih _ (by have := hall c (by simp); simpa using this)
        (fun d hd => hall d (by simp [hd]))
    · rw [if_neg hlt]
      exact ih _ hm (fun d hd => hall d (by simp [hd]))

/-- The fold selects the first candidate of maximal length. -/
theorem selectBest_winner {cs L1 L2 : List (Nat × Nat × Nat)}
    {c : Nat × Nat × Nat} {m : Best}
    (hsplit : cs = L1 ++ c :: L2) (hm : m.bestsize < c.2.2)
    (h1 : ∀ d ∈ L1, d.2.2 < c.2.2) (h2 : ∀ d ∈ L2, d.2.2 ≤ c.2.2) :
    selectBest m cs = ⟨c.1 + 1 - c.2.2, c.2.1 + 1 - c.2.2, c.2.2⟩ := by
  subst hsplit
  unfold selectBest
  rw [List.foldl_append, List.foldl_cons]
  have hmid : (selectBest m L1).bestsize < c.2.2 := selectBest_size_lt L1 m hm h1
  show selectBest (if (selectBest m L1).bestsize < c.2.2 then _ else _) L2 = _
  rw [if_pos hmid]
  exact selectBest_all_le fun d hd => by simpa using h2 d hd

theorem selectStart_all_le {cs : List (Nat × Nat × Nat)} {m : Best}
    (h : ∀ c ∈ cs, c.2.2 ≤ m.bestsize) : selectStart m cs = m := by
  induction cs with
  | nil => rfl
  | cons c cs ih =>
    unfold selectStart
    rw [List.foldl_cons, if_neg (by have := h c (by simp); omega)]
    exact ih fun d hd => h d (by simp [hd])

theorem selectStart_size_lt {K : Nat} :
    ∀ (cs : List (Nat × Nat × Nat)) (m : Best), m.bestsize < K →
      (∀ c ∈ cs, c.2.2 < K) → (selectStart m cs).bestsize < K := by
  intro cs
  induction cs with
  | nil => intro m hm _; exact hm
  | cons c cs ih =>
    intro m hm hall
    unfold selectStart
    rw [List.foldl_cons]
    by_cases hlt : m.bestsize < c.2.2
    · rw [if_pos hlt]
      exact ih _ (by have := hall c (by simp); simpa using this)
        (fun d hd => hall d (by simp [hd]))
    · rw [if_neg hlt]
      exact ih _ hm (fun d hd => hall d (by simp [hd]))

theorem selectStart_winner {cs L1 L2 : List (Nat × Nat × Nat)}
    {c : Nat × Nat × Nat} {m : Best}
    (hsplit : cs = L1 ++ c :: L2) (hm : m.bestsize < c.2.2)
    (h1 : ∀ d ∈ L1, d.2.2 < c.2.2) (h2 : ∀ d ∈ L2, d.2.2 ≤ c.2.2) :
    selectStart m cs = ⟨c.1, c.2.1, c.2.2⟩ := by
  subst hsplit
  unfold selectStart
  rw [List.foldl_append, List.foldl_cons]
  have hmid : (selectStart m L1).bestsize < c.2.2 := selectStart_size_lt L1 m hm h1
  show selectStart (if (selectStart m L1).bestsize < c.2.2 then _ else _) L2 = _
  rw [if_pos hmid]
  exact selectStart_all_le fun d hd => by simpa using h2 d hd

theorem selectBest_filter_zero :
    ∀ (cs : List (Nat × Nat × Nat)) (m : Best),
      selectBest m cs = selectBest m (cs.filter fun c => decide (c.2.2 ≠ 0)) := by
  intro cs
  induction cs with
  | nil => intro m; rfl
  | cons c cs ih =>
    intro m
    by_cases hz : c.2.2 = 0
    · rw [List.filter_cons_of_neg (by simp [hz])]
      unfold selectBest
      rw [List.foldl_cons, if_neg (by omega)]
      exact ih m
    · rw [List.filter_cons_of_pos (by simp [hz])]
      unfold selectBest
      rw [List.foldl_cons, List.foldl_cons]
      exact ih _

/-- Two strictly ascending lists with the same members are equal. -/
theorem sortedEqOfMem :
    ∀ (l1 l2 : List Nat), l1.Pairwise (· < ·) → l2.Pairwise (· < ·) →
      (∀ x, x ∈ l1 ↔ x ∈ l2) → l1 = l2 := by
  intro l1
  induction l1 with
  | nil =>
    intro l2 _ _ hmem
    cases l2 with
    | nil => rfl
    | cons y l2 => exact absurd ((hmem y).mpr (by simp)) (by simp)
  | cons x l1 ih =>
    intro l2 h1 h2 hmem
    cases l2 with
    | nil => exact absurd ((hmem x).mp (by simp)) (by simp)
    | cons y l2 =>
      have hxy : x = y := by
        rcases List.mem_cons.mp ((hmem x).mp (by simp)) with hh | hh
        · exact hh
        · have hyx : y < x := List.rel_of_pairwise_cons h2 hh
          rcases List.mem_cons.mp ((hmem y).mpr (by simp)) with hh2 | hh2
          · omega
          · have := List.rel_of_pairwise_cons h1 hh2
            omega
      subst hxy
      have hmem2 : ∀ z, z ∈ l1 ↔ z ∈ l2 := by
        intro z
        constructor
        · intro hz
          have hxz : x < z := List.rel_of_pairwise_cons h1 hz
          rcases List.mem_cons.mp ((hmem z).mp (by simp [hz])) with hh | hh
          · omega
          · exact hh
        · intro hz
          have hxz : x < z := List.rel_of_pairwise_cons h2 hz
          rcases List.mem_cons.mp ((hmem z).mpr (by simp [hz])) with hh | hh
          · omega
          · exact hh
      rw [ih l2 h1.of_cons h2.of_cons hmem2]

theorem pairwise_flatMap_of {α β : Type} (R : β → β → Prop) (S : α → α → Prop)
    (f : α → List β) :
    ∀ (l : List α), l.Pairwise S →
      (∀ x ∈ l, (f x).Pairwise R) →
      (∀ x y, S x y → ∀ u ∈ f x, ∀ v ∈ f y, R u v) →
      (l.flatMap f).Pairwise R := by
  intro l
  induction l with
  | nil => intro _ _ _; exact List.Pairwise.nil
  | cons x l ih =>
    intro hS hin hcross
    rw [List.flatMap_cons, List.pairwise_append]
    refine ⟨hin x (by simp), ih hS.of_cons (fun y hy => hin y (by simp [hy])) hcross, ?_⟩
    intro u hu v hv
    obtain ⟨y, hy, hvy⟩ := List.mem_flatMap.mp hv
    exact hcross x y (List.rel_of_pairwise_cons hS hy) u hu v hvy

theorem rectGrid_pairwise (alo ahi blo bhi : Nat) :
    (rectGrid alo ahi blo bhi).Pairwise lexLT := by
  unfold rectGrid
  refine pairwise_flatMap_of _ (· < ·) _ _ (rangeList_pairwise _ _) ?_ ?_
  · intro i _
    exact List.pairwise_map.mpr ((rangeList_pairwise _ _).imp
      (fun h => Or.inr ⟨rfl, h⟩))
  · intro i i2 hS u hu v hv
    obtain ⟨j, -, rfl⟩ := List.mem_map.mp hu
    obtain ⟨j2, -, rfl⟩ := List.mem_map.mp hv
    exact Or.inl hS

/-- Iteration order of the candidate list follows the lexicographic order
of the candidate ends. -/
theorem candList_pairwise (a b : Text) (alo ahi blo bhi : Nat) :
    (candList a b alo ahi blo bhi).Pairwise
      (fun c d => lexLT (c.1, c.2.1) (d.1, d.2.1)) := by
  unfold candList
  refine pairwise_flatMap_of _ (· < ·) _ _ (rangeList_pairwise _ _) ?_ ?_
  · intro i _
    unfold candRow
    refine List.pairwise_map.mpr ?_
    refine List.Pairwise.imp ?_ ((b2j_sorted b _).filter _)
    intro j1 j2 h
    exact Or.inr ⟨rfl, h⟩
  · intro i i2 hS u hu v hv
    unfold candRow at hu hv
    obtain ⟨j, -, rfl⟩ := List.mem_map.mp hu
    obtain ⟨j2, -, rfl⟩ := List.mem_map.mp hv
    exact Or.inl hS

theorem pairwise_split_rel {α : Type} {R : α → α → Prop} {L1 L2 : List α} {c : α}
    (h : (L1 ++ c :: L2).Pairwise R) :
    (∀ d ∈ L1, R d c) ∧ ∀ d ∈ L2, R c d := by
  rw [List.pairwise_append] at h
  obtain ⟨h1, h2, hcross⟩ := h
  exact ⟨fun d hd => hcross d hd c (by simp),
    fun d hd => List.rel_of_pairwise_cons h2 hd⟩

/-! ### Run-length conversions -/
theorem matchF_unfold (a b : Text) (ahi bhi i j : Nat) :
    matchF a b ahi bhi i j =
      if i < ahi ∧ j < bhi ∧ nth a i = nth b j then
        matchF a b ahi bhi (i + 1) (j + 1) + 1 else 0 := by
  unfold matchF
  cases hf : ahi - i with
  | zero =>
    rw [matchFGo, if_neg]
    rintro ⟨h1, -, -⟩
    omega
  | succ n =>
    rw [matchFGo]
    by_cases hc : i < ahi ∧ j < bhi ∧ nth a i = nth b j
    · rw [if_pos hc, if_pos hc, show ahi - (i + 1) = n from by omega]
    · rw [if_neg hc, if_neg hc]

theorem matchF_ge_of (a b : Text) (ahi bhi : Nat) :
    ∀ t i j, i + t ≤ ahi → j + t ≤ bhi →
      (∀ d < t, nth a (i + d) = nth b (j + d)) →
      t ≤ matchF a b ahi bhi i j := by
  intro t
  induction t with
  | zero => intro i j _ _ _; exact Nat.zero_le _
  | succ t ih =>
    intro i j h1 h2 h3
    rw [matchF_unfold,
      if_pos ⟨by omega, by omega, by have := h3 0 (by omega); simpa using this⟩]
    have := ih (i + 1) (j + 1) (by omega) (by omega) (by
      intro d hd
      have := h3 (d + 1) (by omega)
      rw [show i + 1 + d = i + (d + 1) from by omega,
        show j + 1 + d = j + (d + 1) from by omega]
      exact this)
    omega

theorem matchF_ge_inv (a b : Text) (ahi bhi : Nat) :
    ∀ t i j, t + 1 ≤ matchF a b ahi bhi i j →
      i + t + 1 ≤ ahi ∧ j + t + 1 ≤ bhi ∧
        ∀ d < t + 1, nth a (i + d) = nth b (j + d) := by
  intro t
  induction t with
  | zero =>
    intro i j h
    rw [matchF_unfold] at h
    by_cases hc : i < ahi ∧ j < bhi ∧ nth a i = nth b j
    · refine ⟨by omega, by omega, ?_⟩
      intro d hd
      rw [show d = 0 from by omega]
      simpa using hc.2.2
    · rw [if_neg hc] at h
      omega
  | succ t ih =>
    intro i j h
    rw [matchF_unfold] at h
    by_cases hc : i < ahi ∧ j < bhi ∧ nth a i = nth b j
    · rw [if_pos hc] at h
      have hrec := ih (i + 1) (j + 1) (by omega)
      refine ⟨by omega, by omega, ?_⟩
      intro d hd
      cases d with
      | zero => simpa using hc.2.2
      | succ d =>
        have := hrec.2.2 d (by omega)
        rw [show i + (d + 1) = i + 1 + d from by omega,
          show j + (d + 1) = j + 1 + d from by omega]
        exact this
    · rw [if_neg hc] at h
      omega

theorem chainK_ge_of (a b : Text) (alo blo : Nat) :
    ∀ t i j, alo + t ≤ i + 1 → blo + t ≤ j + 1 → j < b.length →
      (∀ d < t, nth a (i - d) = nth b (j - d) ∧
        popular b (nth b (j - d)) = false) →
      t ≤ chainK a b alo blo i j := by
  intro t
  induction t with
  | zero => intro i j _ _ _ _; exact Nat.zero_le _
  | succ t ih =>
    intro i j h1 h2 hlb h3
    have hc0 := h3 0 (by omega)
    rw [Nat.sub_zero, Nat.sub_zero] at hc0
    rw [chainK, if_pos ⟨by omega, by omega, hlb, hc0.1, by rw [hc0.1]; exact hc0.2⟩]
    by_cases hbase : i = alo ∨ j = blo ∨ i = 0 ∨ j = 0
    · rw [if_pos hbase]
      omega
    · rw [if_neg hbase]
      have := ih (i - 1) (j - 1) (by omega) (by omega) (by omega) (by
        intro d hd
        have := h3 (d + 1) (by omega)
        rw [show i - 1 - d = i - (d + 1) from by omega,
          show j - 1 - d = j - (d + 1) from by omega]
        exact this)
      omega

theorem chainK_ge_inv (a b : Text) (alo blo : Nat) :
    ∀ t i j, t + 1 ≤ chainK a b alo blo i j →
      alo + t + 1 ≤ i + 1 ∧ blo + t + 1 ≤ j + 1 ∧ j < b.length ∧
        ∀ d < t + 1, nth a (i - d) = nth b (j - d) ∧
          popular b (nth b (j - d)) = false := by
  intro t
  induction t with
  | zero =>
    intro i j h
    have hz : chainK a b alo blo i j ≠ 0 := by omega
    obtain ⟨hg1, hg2, hg3, hg4, hg5⟩ := chainK_pos hz
    refine ⟨by omega, by omega, hg3, ?_⟩
    intro d hd
    rw [show d = 0 from by omega, Nat.sub_zero, Nat.sub_zero]
    exact ⟨hg4, by rw [← hg4]; exact hg5⟩
  | succ t ih =>
    intro i j h
    have hz : chainK a b alo blo i j ≠ 0 := by omega
    obtain ⟨hg1, hg2, hg3, hg4, hg5⟩ := chainK_pos hz
    rw [chainK, if_pos ⟨hg1, hg2, hg3, hg4, hg5⟩] at h
    by_cases hbase : i = alo ∨ j = blo ∨ i = 0 ∨ j = 0
    · rw [if_pos hbase] at h
      omega
    · rw [if_neg hbase] at h
      have hrec := ih (i - 1) (j - 1) (by omega)
      refine ⟨by omega, by omega, hg3, ?_⟩
      intro d hd
      cases d with
      | zero =>
        rw [Nat.sub_zero, Nat.sub_zero]
        exact ⟨hg4, by rw [← hg4]; exact hg5⟩
      | succ d =>
        have := hrec.2.2.2 d (by omega)
        rw [show i - (d + 1) = i - 1 - d from by omega,
          show j - (d + 1) = j - 1 - d from by omega]
        exact this

theorem lexLT_mk {x1 x2 y1 y2 : Nat} :
    lexLT (x1, x2) (y1, y2) ↔ x1 < y1 ∨ (x1 = y1 ∧ x2 < y2) :=
  Iff.rfl

theorem mem_candList {a b : Text} {alo ahi blo bhi : Nat} {c : Nat × Nat × Nat} :
    c ∈ candList a b alo ahi blo bhi ↔
      ∃ i j, (alo ≤ i ∧ i < ahi) ∧ (blo ≤ j ∧ j < bhi) ∧
        j ∈ b2j b (nth a i) ∧ c = (i, j, chainK a b alo blo i j) := by
  simp only [candList, candRow, List.mem_flatMap, List.mem_map, List.mem_filter,
    mem_rangeList, Bool.and_eq_true, decide_eq_true_eq]
  constructor
  · rintro ⟨i, hi, j, ⟨hj1, hj2, hj3⟩, rfl⟩
    exact ⟨i, j, hi, ⟨hj2, hj3⟩, hj1, rfl⟩
  · rintro ⟨i, j, hi, hj, hjm, rfl⟩
    exact ⟨i, hi, j, ⟨hjm, hj.1, hj.2⟩, rfl⟩

theorem mem_gridList_elim {a b : Text} {alo ahi blo bhi : Nat}
    {c : Nat × Nat × Nat}
    (hc : c ∈ (rectGrid alo ahi blo bhi).map
      (fun p => (p.1, p.2, matchF a b ahi bhi p.1 p.2))) :
    (alo ≤ c.1 ∧ c.1 < ahi ∧ blo ≤ c.2.1 ∧ c.2.1 < bhi) ∧
      c.2.2 = matchF a b ahi bhi c.1 c.2.1 := by
  obtain ⟨p, hp, rfl⟩ := List.mem_map.mp hc
  obtain ⟨x, y⟩ := p
  exact ⟨mem_rectGrid.mp hp, rfl⟩

theorem gridList_pairwise (a b : Text) (alo ahi blo bhi : Nat) :
    ((rectGrid alo ahi blo bhi).map
        (fun p => (p.1, p.2, matchF a b ahi bhi p.1 p.2))).Pairwise
      (fun c d => lexLT (c.1, c.2.1) (d.1, d.2.1)) := by
  refine List.pairwise_map.mpr
    (List.Pairwise.imp ?_ (rectGrid_pairwise alo ahi blo bhi))
  intro p q h
  exact h

theorem extendLower_stuck {a b : Text} {alo blo : Nat} {bi bj bs : Nat}
    (h : ¬(alo < bi ∧ blo < bj ∧ nth a (bi - 1) = nth b (bj - 1))) :
    extendLower a b alo blo ⟨bi, bj, bs⟩ = ⟨bi, bj, bs⟩ := by
  unfold extendLower
  rw [mk_besti]
  cases bi with
  | zero => rfl
  | succ n =>
    rw [extendLowerGo, if_neg]
    rintro ⟨h1, h2, -, h4⟩
    exact h ⟨h1, h2, h4⟩

theorem extendUpper_stuck {a b : Text} {ahi bhi : Nat} {bi bj bs : Nat}
    (h : ¬(bi + bs < ahi ∧ bj + bs < bhi ∧ nth a (bi + bs) = nth b (bj + bs))) :
    extendUpper a b ahi bhi ⟨bi, bj, bs⟩ = ⟨bi, bj, bs⟩ := by
  unfold extendUpper
  rw [mk_besti, mk_bestsize]
  cases hf : ahi - (bi + bs) with
  | zero => rfl
  | succ n =>
    rw [extendUpperGo, if_neg]
    rintro ⟨h1, h2, -, h4⟩
    exact h ⟨h1, h2, h4⟩

/-- A chain of length `k` ending at `(i, j)` yields a run of length at
least `k` starting at `(i + 1 - k, j + 1 - k)`. -/
theorem matchF_of_chainK {a b : Text} {alo ahi blo bhi i j k : Nat}
    (hk : k ≠ 0) (hkv : k ≤ chainK a b alo blo i j)
    (hi : i < ahi) (hj : j < bhi) :
    k ≤ matchF a b ahi bhi (i + 1 - k) (j + 1 - k) := by
  obtain ⟨k0, rfl⟩ : ∃ k0, k = k0 + 1 := ⟨k - 1, by omega⟩
  obtain ⟨h1, h2, h3, h4⟩ := chainK_ge_inv a b alo blo k0 i j hkv
  refine matchF_ge_of a b ahi bhi (k0 + 1) _ _ (by omega) (by omega) ?_
  intro d hd
  have := (h4 (k0 - d) (by omega)).1
  rw [show i + 1 - (k0 + 1) + d = i - (k0 - d) from by omega,
    show j + 1 - (k0 + 1) + d = j - (k0 - d) from by omega]
  exact this

/-- Without popular elements along the run, a common run of length `f`
starting at `(i, j)` yields a chain of length at least `f` ending at
`(i + f - 1, j + f - 1)`. -/
theorem chainK_of_matchF {a b : Text} {alo ahi blo bhi i j f : Nat}
    (hnj : ∀ c, popular b c = false) (hb : bhi ≤ b.length)
    (hf : f ≠ 0) (hfv : f ≤ matchF a b ahi bhi i j)
    (hai : alo ≤ i) (hbj : blo ≤ j) :
    f ≤ chainK a b alo blo (i + f - 1) (j + f - 1) := by
  obtain ⟨f0, rfl⟩ : ∃ f0, f = f0 + 1 := ⟨f - 1, by omega⟩
  obtain ⟨h1, h2, h3⟩ := matchF_ge_inv a b ahi bhi f0 i j hfv
  refine chainK_ge_of a b alo blo (f0 + 1) _ _ (by omega) (by omega) (by omega) ?_
  intro d hd
  have := h3 (f0 - d) (by omega)
  rw [show i + (f0 + 1) - 1 - d = i + (f0 - d) from by omega,
    show j + (f0 + 1) - 1 - d = j + (f0 - d) from by omega]
  exact ⟨this, hnj _⟩

/-- On the self-comparison the chain ending at `(i, j)` is no longer than
the diagonal chain ending at `(min i j, min i j)`. -/
theorem chainK_le_diag (x : Text) (i j : Nat) :
    chainK x x 0 0 i j ≤ chainK x x 0 0 (min i j) (min i j) := by
  by_cases hk : chainK x x 0 0 i j = 0
  · omega
  · obtain ⟨h1, h2, h3, h4⟩ :=
      chainK_ge_inv x x 0 0 (chainK x x 0 0 i j - 1) i j (by omega)
    by_cases hij : i ≤ j
    · rw [min_eq_left hij]
      refine chainK_ge_of x x 0 0 (chainK x x 0 0 i j) i i
        (by omega) (by omega) (by omega) ?_
      intro d hd
      obtain ⟨hc, hp⟩ := h4 d (by omega)
      exact ⟨rfl, by rw [hc]; exact hp⟩
    · rw [min_eq_right (by omega)]
      refine chainK_ge_of x x 0 0 (chainK x x 0 0 i j) j j
        (by omega) (by omega) (by omega) ?_
      intro d hd
      obtain ⟨-, hp⟩ := h4 d (by omega)
      exact ⟨rfl, hp⟩

/-- On the self-comparison, the first extension loop slides a diagonal
match all the way down to the origin. -/
theorem extendLowerGo_diag (x : Text) :
    ∀ (fuel bs : Nat),
      extendLowerGo x x 0 0 fuel ⟨fuel, fuel, bs⟩ = ⟨0, 0, bs + fuel⟩ := by
  intro fuel
  induction fuel with
  | zero => intro bs; rfl
  | succ n ih =>
    intro bs
    rw [extendLowerGo, if_pos ⟨by omega, by omega, rfl, rfl⟩]
    rw [show n + 1 - 1 = n from by omega]
    rw [ih (bs + 1)]
    congr 1
    omega

/-- On the self-comparison, the second extension loop extends a match at
the origin to the whole text. -/
theorem extendUpperGo_diag (x : Text) (n : Nat) :
    ∀ (fuel bs : Nat), bs + fuel ≤ n →
      extendUpperGo x x n n fuel ⟨0, 0, bs⟩ = ⟨0, 0, bs + fuel⟩ := by
  intro fuel
  induction fuel with
  | zero => intro bs _; rfl
  | succ m ih =>
    intro bs hle
    rw [extendUpperGo, if_pos ⟨by omega, by omega, rfl, rfl⟩]
    rw [ih (bs + 1) (by omega)]
    congr 1
    omega

/-- Every common run in the window is bounded by the largest chain
candidate. -/
theorem matchF_le_candMax {a b : Text} {alo ahi blo bhi : Nat}
    (hnj : ∀ c, popular b c = false) (hb : bhi ≤ b.length) :
    ∀ i j, alo ≤ i → i < ahi → blo ≤ j → j < bhi →
      matchF a b ahi bhi i j ≤ candMax (candList a b alo ahi blo bhi) := by
  intro i j h1 h2 h3 h4
  by_cases hf0 : matchF a b ahi bhi i j = 0
  · omega
  · have hK := chainK_of_matchF hnj hb hf0 (le_refl _) h1 h3
    have h5 := matchF_ge_inv a b ahi bhi (matchF a b ahi bhi i j - 1) i j (by omega)
    have hcmem : (i + matchF a b ahi bhi i j - 1, j + matchF a b ahi bhi i j - 1,
        chainK a b alo blo (i + matchF a b ahi bhi i j - 1)
          (j + matchF a b ahi bhi i j - 1))
        ∈ candList a b alo ahi blo bhi := by
      rw [mem_candList]
      refine ⟨_, _, ⟨by omega, by omega⟩, ⟨by omega, by omega⟩, ?_, rfl⟩
      rw [mem_b2j]
      refine ⟨hnj _, by omega, ?_⟩
      have h6 := h5.2.2 (matchF a b ahi bhi i j - 1) (by omega)
      rw [show i + (matchF a b ahi bhi i j - 1) = i + matchF a b ahi bhi i j - 1
            from by omega,
        show j + (matchF a b ahi bhi i j - 1) = j + matchF a b ahi bhi i j - 1
            from by omega] at h6
      exact h6.symm
    have h7 : chainK a b alo blo (i + matchF a b ahi bhi i j - 1)
        (j + matchF a b ahi bhi i j - 1) ≤ candMax (candList a b alo ahi blo bhi) :=
      candMax_le hcmem
    omega

set_option maxHeartbeats 2000000 in
/-- Without junk (no popular elements) and with the `b` window inside `b`,
`find_longest_match` returns exactly the reference selection: the earliest
(in lexicographic start order) longest common contiguous run of the
window. -/
theorem find_eq_refFind (a b : Text) (alo ahi blo bhi : Nat)
    (hnj : ∀ c, popular b c = false) (hb : bhi ≤ b.length) :
    find_longest_match a b alo ahi blo bhi = refFind a b alo ahi blo bhi := by
  have hFle := @matchF_le_candMax a b alo ahi blo bhi hnj hb
  rw [find_longest_match, extendUpperJunk_eq, extendLowerJunk_eq, dp_best_eq]
  by_cases hM : candMax (candList a b alo ahi blo bhi) = 0
  · have hdp : selectBest ⟨alo, blo, 0⟩ (candList a b alo ahi blo bhi)
        = ⟨alo, blo, 0⟩ := by
      refine selectBest_all_le ?_
      intro c hc
      have := candMax_le hc
      rw [mk_bestsize]
      omega
    rw [hdp, extendLower_stuck (by rintro ⟨h1, -, -⟩; omega),
      extendUpper_stuck ?_]
    · rw [refFind]
      refine (selectStart_all_le ?_).symm
      intro c hc
      obtain ⟨⟨g1, g2, g3, g4⟩, hval⟩ := mem_gridList_elim hc
      rw [mk_bestsize, hval]
      have := hFle c.1 c.2.1 g1 g2 g3 g4
      omega
    · rintro ⟨h1, h2, h3⟩
      have hK : 1 ≤ chainK a b alo blo alo blo := by
        refine chainK_ge_of a b alo blo 1 alo blo (by omega) (by omega) (by omega) ?_
        intro d hd
        rw [show d = 0 from by omega, Nat.sub_zero, Nat.sub_zero]
        exact ⟨by simpa using h3, hnj _⟩
      have hmem : (alo, blo, chainK a b alo blo alo blo)
          ∈ candList a b alo ahi blo bhi := by
        rw [mem_candList]
        refine ⟨alo, blo, ⟨le_refl _, by omega⟩, ⟨le_refl _, by omega⟩, ?_, rfl⟩
        rw [mem_b2j]
        exact ⟨hnj _, by omega, by simpa using h3.symm⟩
      have h8 : chainK a b alo blo alo blo ≤ candMax (candList a b alo ahi blo bhi) :=
        candMax_le hmem
      omega
  · obtain ⟨c, hcmem0, hcM⟩ := candMax_attained hM
    obtain ⟨L1, c0, L2, hsplit, hc0, hL1⟩ :=
      exists_first_split (fun d => d.2.2 = candMax (candList a b alo ahi blo bhi))
        (candList a b alo ahi blo bhi) ⟨c, hcmem0, hcM⟩
    have hc0mem : c0 ∈ candList a b alo ahi blo bhi := by
      rw [hsplit]
      simp
    obtain ⟨e1, e2, ⟨he1, he2⟩, ⟨he3, he4⟩, hb2j, hc0eq⟩ := mem_candList.mp hc0mem
    have hKM : chainK a b alo blo e1 e2 = candMax (candList a b alo ahi blo bhi) := by
      rw [hc0eq] at hc0
      exact hc0
    obtain ⟨hI1, hI2, hI3, hI4⟩ :=
      chainK_ge_inv a b alo blo (candMax (candList a b alo ahi blo bhi) - 1) e1 e2
        (by omega)
    have hdp : selectBest ⟨alo, blo, 0⟩ (candList a b alo ahi blo bhi)
        = ⟨e1 + 1 - candMax (candList a b alo ahi blo bhi),
           e2 + 1 - candMax (candList a b alo ahi blo bhi),
           candMax (candList a b alo ahi blo bhi)⟩ := by
      have hw := selectBest_winner hsplit
        (show (Best.mk alo blo 0).bestsize < c0.2.2 from by
          rw [mk_bestsize, hc0]; omega)
        (fun d hd => by
          have hdm : d ∈ candList a b alo ahi blo bhi := by
            rw [hsplit]; exact List.mem_append_left _ hd
          have hle := candMax_le hdm
          have hne := hL1 d hd
          rw [hc0]
          omega)
        (fun d hd => by
          have hdm : d ∈ candList a b alo ahi blo bhi := by
            rw [hsplit]
            exact List.mem_append_right _ (List.mem_cons_of_mem _ hd)
          rw [hc0]
          exact candMax_le hdm)
      rw [hw, hc0eq, hKM]
    have hlow : ¬(alo < e1 + 1 - candMax (candList a b alo ahi blo bhi) ∧
        blo < e2 + 1 - candMax (candList a b alo ahi blo bhi) ∧
        nth a (e1 + 1 - candMax (candList a b alo ahi blo bhi) - 1)
          = nth b (e2 + 1 - candMax (candList a b alo ahi blo bhi) - 1)) := by
      rintro ⟨g1, g2, g3⟩
      rw [show e1 + 1 - candMax (candList a b alo ahi blo bhi) - 1
            = e1 - candMax (candList a b alo ahi blo bhi) from by omega,
        show e2 + 1 - candMax (candList a b alo ahi blo bhi) - 1
            = e2 - candMax (candList a b alo ahi blo bhi) from by omega] at g3
      have hKg : candMax (candList a b alo ahi blo bhi) + 1
          ≤ chainK a b alo blo e1 e2 := by
        refine chainK_ge_of a b alo blo _ e1 e2 (by omega) (by omega) (by omega) ?_
        intro d hd
        by_cases hdM : d = candMax (candList a b alo ahi blo bhi)
        · rw [hdM]
          refine ⟨g3, ?_⟩
          rw [← g3]
          exact hnj _
        · exact hI4 d (by omega)
      omega
    have hup : ¬(e1 + 1 - candMax (candList a b alo ahi blo bhi)
          + candMax (candList a b alo ahi blo bhi) < ahi ∧
        e2 + 1 - candMax (candList a b alo ahi blo bhi)
          + candMax (candList a b alo ahi blo bhi) < bhi ∧
        nth a (e1 + 1 - candMax (candList a b alo ahi blo bhi)
          + candMax (candList a b alo ahi blo bhi))
          = nth b (e2 + 1 - candMax (candList a b alo ahi blo bhi)
            + candMax (candList a b alo ahi blo bhi))) := by
      rw [show e1 + 1 - candMax (candList a b alo ahi blo bhi)
            + candMax (candList a b alo ahi blo bhi) = e1 + 1 from by omega,
        show e2 + 1 - candMax (candList a b alo ahi blo bhi)
            + candMax (candList a b alo ahi blo bhi) = e2 + 1 from by omega]
      rintro ⟨g1, g2, g3⟩
      have hKg : candMax (candList a b alo ahi blo bhi) + 1
          ≤ chainK a b alo blo (e1 + 1) (e2 + 1) := by
        refine chainK_ge_of a b alo blo _ _ _ (by omega) (by omega) (by omega) ?_
        intro d hd
        cases d with
        | zero =>
          rw [Nat.sub_zero, Nat.sub_zero]
          refine ⟨g3, ?_⟩
          rw [← g3]
          exact hnj _
        | succ d =>
          rw [show e1 + 1 - (d + 1) = e1 - d from by omega,
            show e2 + 1 - (d + 1) = e2 - d from by omega]
          exact hI4 d (by omega)
      have hmem2 : (e1 + 1, e2 + 1, chainK a b alo blo (e1 + 1) (e2 + 1))
          ∈ candList a b alo ahi blo bhi := by
        rw [mem_candList]
        refine ⟨e1 + 1, e2 + 1, ⟨by omega, g1⟩, ⟨by omega, g2⟩, ?_, rfl⟩
        rw [mem_b2j]
        exact ⟨hnj _, by omega, g3.symm⟩
      have h9 : chainK a b alo blo (e1 + 1) (e2 + 1)
          ≤ candMax (candList a b alo ahi blo bhi) := candMax_le hmem2
      omega
    rw [hdp, extendLower_stuck hlow, extendUpper_stuck hup]
    have hFs : matchF a b ahi bhi (e1 + 1 - candMax (candList a b alo ahi blo bhi))
        (e2 + 1 - candMax (candList a b alo ahi blo bhi))
        = candMax (candList a b alo ahi blo bhi) := by
      have hge := @matchF_of_chainK a b alo ahi blo bhi e1 e2
        (candMax (candList a b alo ahi blo bhi)) hM (by omega) he2 he4
      have hle := hFle (e1 + 1 - candMax (candList a b alo ahi blo bhi))
        (e2 + 1 - candMax (candList a b alo ahi blo bhi))
        (by omega) (by omega) (by omega) (by omega)
      omega
    have hfirst : ∀ i j, alo ≤ i → i < ahi → blo ≤ j → j < bhi →
        lexLT (i, j) (e1 + 1 - candMax (candList a b alo ahi blo bhi),
          e2 + 1 - candMax (candList a b alo ahi blo bhi)) →
        matchF a b ahi bhi i j ≠ candMax (candList a b alo ahi blo bhi) := by
      intro i j g1 g2 g3 g4 glex geq
      rw [lexLT_mk] at glex
      have hKend : candMax (candList a b alo ahi blo bhi)
          ≤ chainK a b alo blo (i + candMax (candList a b alo ahi blo bhi) - 1)
            (j + candMax (candList a b alo ahi blo bhi) - 1) :=
        @chainK_of_matchF a b alo ahi blo bhi i j
          (candMax (candList a b alo ahi blo bhi)) hnj hb hM
          (le_of_eq geq.symm) g1 g3
      have h5 := matchF_ge_inv a b ahi bhi
        (candMax (candList a b alo ahi blo bhi) - 1) i j (by omega)
      have hmem3 : (i + candMax (candList a b alo ahi blo bhi) - 1,
          j + candMax (candList a b alo ahi blo bhi) - 1,
          chainK a b alo blo (i + candMax (candList a b alo ahi blo bhi) - 1)
            (j + candMax (candList a b alo ahi blo bhi) - 1))
          ∈ candList a b alo ahi blo bhi := by
        rw [mem_candList]
        refine ⟨_, _, ⟨by omega, by omega⟩, ⟨by omega, by omega⟩, ?_, rfl⟩
        rw [mem_b2j]
        refine ⟨hnj _, by omega, ?_⟩
        have h6 := h5.2.2 (candMax (candList a b alo ahi blo bhi) - 1) (by omega)
        rw [show i + (candMax (candList a b alo ahi blo bhi) - 1)
              = i + candMax (candList a b alo ahi blo bhi) - 1 from by omega,
          show j + (candMax (candList a b alo ahi blo bhi) - 1)
              = j + candMax (candList a b alo ahi blo bhi) - 1 from by omega] at h6
        exact h6.symm
      have hKendle : chainK a b alo blo
          (i + candMax (candList a b alo ahi blo bhi) - 1)
          (j + candMax (candList a b alo ahi blo bhi) - 1)
          ≤ candMax (candList a b alo ahi blo bhi) := candMax_le hmem3
      have hmem4 : (i + candMax (candList a b alo ahi blo bhi) - 1,
          j + candMax (candList a b alo ahi blo bhi) - 1,
          chainK a b alo blo (i + candMax (candList a b alo ahi blo bhi) - 1)
            (j + candMax (candList a b alo ahi blo bhi) - 1))
          ∈ L1 ++ c0 :: L2 := by
        rw [← hsplit]
        exact hmem3
      rcases List.mem_append.mp hmem4 with hin1 | hin12
      · refine hL1 _ hin1 ?_
        show chainK a b alo blo (i + candMax (candList a b alo ahi blo bhi) - 1)
            (j + candMax (candList a b alo ahi blo bhi) - 1)
          = candMax (candList a b alo ahi blo bhi)
        omega
      rcases List.mem_cons.mp hin12 with heqc | hin2
      · have hq1 : (i + candMax (candList a b alo ahi blo bhi) - 1 : Nat) = e1 := by
          have := congrArg Prod.fst heqc
          rw [hc0eq] at this
          exact this
        have hq2 : (j + candMax (candList a b alo ahi blo bhi) - 1 : Nat) = e2 := by
          have := congrArg (fun q => q.2.1) heqc
          rw [hc0eq] at this
          exact this
        omega
      · have hpw := candList_pairwise a b alo ahi blo bhi
        rw [hsplit] at hpw
        have hrel := (pairwise_split_rel hpw).2 _ hin2
        have hq : lexLT (e1, e2) (i + candMax (candList a b alo ahi blo bhi) - 1,
            j + candMax (candList a b alo ahi blo bhi) - 1) := by
          rw [hc0eq] at hrel
          exact hrel
        rw [lexLT_mk] at hq
        omega
    have hsmem : (e1 + 1 - candMax (candList a b alo ahi blo bhi),
        e2 + 1 - candMax (candList a b alo ahi blo bhi),
        matchF a b ahi bhi (e1 + 1 - candMax (candList a b alo ahi blo bhi))
          (e2 + 1 - candMax (candList a b alo ahi blo bhi)))
        ∈ (rectGrid alo ahi blo bhi).map
          (fun p => (p.1, p.2, matchF a b ahi bhi p.1 p.2)) := by
      refine List.mem_map.mpr ⟨(e1 + 1 - candMax (candList a b alo ahi blo bhi),
        e2 + 1 - candMax (candList a b alo ahi blo bhi)), ?_, rfl⟩
      rw [mem_rectGrid]
      exact ⟨by omega, by omega, by omega, by omega⟩
    obtain ⟨G1, g0, G2, hgsplit, hg0, hG1⟩ :=
      exists_first_split (fun d => d.2.2 = candMax (candList a b alo ahi blo bhi))
        ((rectGrid alo ahi blo bhi).map
          (fun p => (p.1, p.2, matchF a b ahi bhi p.1 p.2)))
        ⟨_, hsmem, hFs⟩
    have hg0mem : g0 ∈ (rectGrid alo ahi blo bhi).map
        (fun p => (p.1, p.2, matchF a b ahi bhi p.1 p.2)) := by
      rw [hgsplit]
      simp
    obtain ⟨⟨hg1, hg2, hg3, hg4⟩, hgval⟩ := mem_gridList_elim hg0mem
    have hends : g0.1 = e1 + 1 - candMax (candList a b alo ahi blo bhi) ∧
        g0.2.1 = e2 + 1 - candMax (candList a b alo ahi blo bhi) := by
      by_contra hne
      have hlex : lexLT (g0.1, g0.2.1)
            (e1 + 1 - candMax (candList a b alo ahi blo bhi),
             e2 + 1 - candMax (candList a b alo ahi blo bhi)) ∨
          lexLT (e1 + 1 - candMax (candList a b alo ahi blo bhi),
             e2 + 1 - candMax (candList a b alo ahi blo bhi)) (g0.1, g0.2.1) := by
        rw [lexLT_mk, lexLT_mk]
        omega
      rcases hlex with hh | hh
      · refine hfirst g0.1 g0.2.1 hg1 hg2 hg3 hg4 hh ?_
        rw [← hgval]
        exact hg0
      · have hsmem2 : (e1 + 1 - candMax (candList a b alo ahi blo bhi),
            e2 + 1 - candMax (candList a b alo ahi blo bhi),
            matchF a b ahi bhi (e1 + 1 - candMax (candList a b alo ahi blo bhi))
              (e2 + 1 - candMax (candList a b alo ahi blo bhi)))
            ∈ G1 ++ g0 :: G2 := by
          rw [← hgsplit]
          exact hsmem
        rcases List.mem_append.mp hsmem2 with hin1 | hin12
        · exact hG1 _ hin1 hFs
        rcases List.mem_cons.mp hin12 with heq | hin2
        · have hq1 : g0.1 = e1 + 1 - candMax (candList a b alo ahi blo bhi) :=
            (congrArg Prod.fst heq).symm
          have hq2 : g0.2.1 = e2 + 1 - candMax (candList a b alo ahi blo bhi) :=
            (congrArg (fun q => q.2.1) heq).symm
          rw [lexLT_mk] at hh
          omega
        · have hpw := gridList_pairwise a b alo ahi blo bhi
          rw [hgsplit] at hpw
          have hrel := (pairwise_split_rel hpw).2 _ hin2
          have hq : lexLT (g0.1, g0.2.1)
              (e1 + 1 - candMax (candList a b alo ahi blo bhi),
               e2 + 1 - candMax (candList a b alo ahi blo bhi)) := hrel
          rw [lexLT_mk] at hq hh
          omega
    rw [refFind]
    rw [selectStart_winner hgsplit
      (show (Best.mk alo blo 0).bestsize < g0.2.2 from by
        rw [mk_bestsize, hg0]; omega)
      (fun d hd => by
        have hdm : d ∈ (rectGrid alo ahi blo bhi).map
            (fun p => (p.1, p.2, matchF a b ahi bhi p.1 p.2)) := by
          rw [hgsplit]; exact List.mem_append_left _ hd
        obtain ⟨⟨k1, k2, k3, k4⟩, hdval⟩ := mem_gridList_elim hdm
        have hdle := hFle d.1 d.2.1 k1 k2 k3 k4
        have hdne := hG1 d hd
        rw [hg0, hdval]
        omega)
      (fun d hd => by
        have hdm : d ∈ (rectGrid alo ahi blo bhi).map
            (fun p => (p.1, p.2, matchF a b ahi bhi p.1 p.2)) := by
          rw [hgsplit]
          exact List.mem_append_right _ (List.mem_cons_of_mem _ hd)
        obtain ⟨⟨k1, k2, k3, k4⟩, hdval⟩ := mem_gridList_elim hdm
        have hdle := hFle d.1 d.2.1 k1 k2 k3 k4
        rw [hg0, hdval]
        omega)]
    rw [hgval, hends.1, hends.2, hFs]

/-- The dynamic-programming fold on the self-comparison selects a diagonal
candidate: its recorded start has equal components. -/
theorem selectBest_self_diag (x : Text) :
    (selectBest ⟨0, 0, 0⟩ (candList x x 0 x.length 0 x.length)).besti
      = (selectBest ⟨0, 0, 0⟩ (candList x x 0 x.length 0 x.length)).bestj := by
  by_cases hM : candMax (candList x x 0 x.length 0 x.length) = 0
  · rw [selectBest_all_le]
    intro c hc
    have := candMax_le hc
    rw [mk_bestsize]
    omega
  · obtain ⟨c, hcmem0, hcM⟩ := candMax_attained hM
    obtain ⟨L1, c0, L2, hsplit, hc0, hL1⟩ :=
      exists_first_split (fun d => d.2.2 = candMax (candList x x 0 x.length 0 x.length))
        (candList x x 0 x.length 0 x.length) ⟨c, hcmem0, hcM⟩
    have hc0mem : c0 ∈ candList x x 0 x.length 0 x.length := by
      rw [hsplit]
      simp
    obtain ⟨e1, e2, ⟨he1, he2⟩, ⟨he3, he4⟩, hb2j, hc0eq⟩ := mem_candList.mp hc0mem
    have hKM : chainK x x 0 0 e1 e2 = candMax (candList x x 0 x.length 0 x.length) := by
      rw [hc0eq] at hc0
      exact hc0
    have hdiag : e1 = e2 := by
      by_contra hne
      have hKd : candMax (candList x x 0 x.length 0 x.length)
          ≤ chainK x x 0 0 (min e1 e2) (min e1 e2) := by
        have := chainK_le_diag x e1 e2
        omega
      have hKdpos : chainK x x 0 0 (min e1 e2) (min e1 e2) ≠ 0 := by omega
      obtain ⟨-, -, hg3, hg4, hg5⟩ := chainK_pos hKdpos
      have hmemd : (min e1 e2, min e1 e2, chainK x x 0 0 (min e1 e2) (min e1 e2))
          ∈ candList x x 0 x.length 0 x.length := by
        rw [mem_candList]
        refine ⟨min e1 e2, min e1 e2, ⟨by omega, by omega⟩, ⟨by omega, by omega⟩, ?_, rfl⟩
        rw [mem_b2j]
        exact ⟨hg5, hg3, hg4.symm⟩
      have hKdle : chainK x x 0 0 (min e1 e2) (min e1 e2)
          ≤ candMax (candList x x 0 x.length 0 x.length) := candMax_le hmemd
      have hmemd2 : (min e1 e2, min e1 e2, chainK x x 0 0 (min e1 e2) (min e1 e2))
          ∈ L1 ++ c0 :: L2 := by
        rw [← hsplit]
        exact hmemd
      rcases List.mem_append.mp hmemd2 with hin1 | hin12
      · refine hL1 _ hin1 ?_
        show chainK x x 0 0 (min e1 e2) (min e1 e2)
          = candMax (candList x x 0 x.length 0 x.length)
        omega
      rcases List.mem_cons.mp hin12 with heqc | hin2
      · have hq1 : (min e1 e2 : Nat) = e1 := by
          have := congrArg Prod.fst heqc
          rw [hc0eq] at this
          exact this
        have hq2 : (min e1 e2 : Nat) = e2 := by
          have := congrArg (fun q => q.2.1) heqc
          rw [hc0eq] at this
          exact this
        omega
      · have hpw := candList_pairwise x x 0 x.length 0 x.length
        rw [hsplit] at hpw
        have hrel := (pairwise_split_rel hpw).2 _ hin2
        have hq : lexLT (e1, e2) (min e1 e2, min e1 e2) := by
          rw [hc0eq] at hrel
          exact hrel
        rw [lexLT_mk] at hq
        omega
    have hdp := selectBest_winner hsplit
      (show (Best.mk 0 0 0).bestsize < c0.2.2 from by
        rw [mk_bestsize, hc0]; omega)
      (fun d hd => by
        have hdm : d ∈ candList x x 0 x.length 0 x.length := by
          rw [hsplit]; exact List.mem_append_left _ hd
        have hle := candMax_le hdm
        have hne := hL1 d hd
        rw [hc0]
        omega)
      (fun d hd => by
        have hdm : d ∈ candList x x 0 x.length 0 x.length := by
          rw [hsplit]
          exact List.mem_append_right _ (List.mem_cons_of_mem _ hd)
        rw [hc0]
        exact candMax_le hdm)
    rw [hdp, hc0eq, mk_besti, mk_bestj]
    rw [show ((e1, e2, chainK x x 0 0 e1 e2) : Nat × Nat × Nat).1 = e1 from rfl,
      show ((e1, e2, chainK x x 0 0 e1 e2) : Nat × Nat × Nat).2.1 = e2 from rfl,
      show ((e1, e2, chainK x x 0 0 e1 e2) : Nat × Nat × Nat).2.2
        = chainK x x 0 0 e1 e2 from rfl, hdiag]

/-- `find_longest_match` maps the whole self-comparison window to the whole
text. -/
theorem find_self (x : Text) :
    find_longest_match x x 0 x.length 0 x.length = ⟨0, 0, x.length⟩ := by
  have hdiag := selectBest_self_diag x
  have hokS : okBest 0 x.length 0 x.length
      (selectBest ⟨0, 0, 0⟩ (candList x x 0 x.length 0 x.length)) := by
    rw [← dp_best_eq]
    exact outerLoop_ok _ _ _ (rangeList_pairwise _ _)
      (fun i hi => mem_rangeList.mp hi) (fun i _ => rowInv_zero) okBest_init
  rw [find_longest_match, extendUpperJunk_eq, extendLowerJunk_eq, dp_best_eq]
  rcases hsel : selectBest ⟨0, 0, 0⟩ (candList x x 0 x.length 0 x.length)
    with ⟨s1, s2, k⟩
  rw [hsel] at hdiag hokS
  rw [mk_besti, mk_bestj] at hdiag
  subst hdiag
  rw [okBest_mk] at hokS
  have hks : k + s1 ≤ x.length := by
    by_cases hk : k = 0
    · have := hokS.2.2.1 hk
      omega
    · have := hokS.2.2.2 hk
      omega
  have hL : extendLower x x 0 0 ⟨s1, s1, k⟩ = ⟨0, 0, k + s1⟩ := by
    unfold extendLower
    rw [mk_besti]
    exact extendLowerGo_diag x s1 k
  rw [hL]
  unfold extendUpper
  rw [mk_besti, mk_bestsize]
  rw [extendUpperGo_diag x x.length (x.length - (0 + (k + s1))) (k + s1) (by omega)]
  rw [show k + s1 + (x.length - (0 + (k + s1))) = x.length from by omega]

theorem matchedSumGo_succ (a b : Text) (fuel alo ahi blo bhi : Nat) :
    matchedSumGo a b (fuel + 1) alo ahi blo bhi =
      if (find_longest_match a b alo ahi blo bhi).bestsize = 0 then 0
      else
        (if alo < (find_longest_match a b alo ahi blo bhi).besti ∧
            blo < (find_longest_match a b alo ahi blo bhi).bestj then
          matchedSumGo a b fuel alo (find_longest_match a b alo ahi blo bhi).besti
            blo (find_longest_match a b alo ahi blo bhi).bestj
        else 0)
        + (find_longest_match a b alo ahi blo bhi).bestsize
        + (if (find_longest_match a b alo ahi blo bhi).besti +
              (find_longest_match a b alo ahi blo bhi).bestsize < ahi ∧
            (find_longest_match a b alo ahi blo bhi).bestj +
              (find_longest_match a b alo ahi blo bhi).bestsize < bhi then
          matchedSumGo a b fuel
            ((find_longest_match a b alo ahi blo bhi).besti +
              (find_longest_match a b alo ahi blo bhi).bestsize) ahi
            ((find_longest_match a b alo ahi blo bhi).bestj +
              (find_longest_match a b alo ahi blo bhi).bestsize) bhi
        else 0) := rfl

theorem refMatchedGo_succ (a b : Text) (fuel alo ahi blo bhi : Nat) :
    refMatchedGo a b (fuel + 1) alo ahi blo bhi =
      if (refFind a b alo ahi blo bhi).bestsize = 0 then 0
      else
        refMatchedGo a b fuel alo (refFind a b alo ahi blo bhi).besti
          blo (refFind a b alo ahi blo bhi).bestj
        + (refFind a b alo ahi blo bhi).bestsize
        + refMatchedGo a b fuel
            ((refFind a b alo ahi blo bhi).besti +
              (refFind a b alo ahi blo bhi).bestsize) ahi
            ((refFind a b alo ahi blo bhi).bestj +
              (refFind a b alo ahi blo bhi).bestsize) bhi := rfl

/-- The reference selection on an empty window is the empty match at the
window origin. -/
theorem refFind_empty (a b : Text) (alo ahi blo bhi : Nat)
    (h : ahi ≤ alo ∨ bhi ≤ blo) :
    refFind a b alo ahi blo bhi = ⟨alo, blo, 0⟩ := by
  have hg : rectGrid alo ahi blo bhi = [] := by
    rcases h with hh | hh
    · rw [rectGrid, rangeList_nil hh]
      rfl
    · rw [rectGrid, rangeList_nil hh]
      simp
  rw [refFind, hg]
  rfl

theorem refMatchedGo_empty (a b : Text) :
    ∀ (fuel alo ahi blo bhi : Nat), ahi ≤ alo ∨ bhi ≤ blo →
      refMatchedGo a b fuel alo ahi blo bhi = 0 := by
  intro fuel
  cases fuel with
  | zero => intro _ _ _ _ _; rfl
  | succ fuel =>
    intro alo ahi blo bhi h
    rw [refMatchedGo_succ, refFind_empty a b alo ahi blo bhi h]
    rfl

/-- Without junk and inside `b`, the two matched-length recursions agree at
every fuel. -/
theorem matchedSumGo_eq_refMatchedGo (a b : Text)
    (hnj : ∀ c, popular b c = false) :
    ∀ (fuel alo ahi blo bhi : Nat), bhi ≤ b.length →
      matchedSumGo a b fuel alo ahi blo bhi
        = refMatchedGo a b fuel alo ahi blo bhi := by
  intro fuel
  induction fuel with
  | zero => intro _ _ _ _ _; rfl
  | succ fuel ih =>
    intro alo ahi blo bhi hb
    rw [matchedSumGo_succ, refMatchedGo_succ,
      find_eq_refFind a b alo ahi blo bhi hnj hb]
    obtain ⟨hk1, hk2, -, hk4⟩ := refFind_ok a b alo ahi blo bhi
    by_cases hbs : (refFind a b alo ahi blo bhi).bestsize = 0
    · rw [if_pos hbs, if_pos hbs]
    · rw [if_neg hbs, if_neg hbs]
      obtain ⟨hk5, hk6⟩ := hk4 hbs
      congr 1
      · congr 1
        by_cases hg : alo < (refFind a b alo ahi blo bhi).besti ∧
            blo < (refFind a b alo ahi blo bhi).bestj
        · rw [if_pos hg]
          exact ih alo _ blo _ (by omega)
        · rw [if_neg hg]
          exact (refMatchedGo_empty a b fuel alo _ blo _ (by omega)).symm
      · by_cases hg : (refFind a b alo ahi blo bhi).besti +
              (refFind a b alo ahi blo bhi).bestsize < ahi ∧
            (refFind a b alo ahi blo bhi).bestj +
              (refFind a b alo ahi blo bhi).bestsize < bhi
        · rw [if_pos hg]
          exact ih _ ahi _ bhi hb
        · rw [if_neg hg]
          exact (refMatchedGo_empty a b fuel _ ahi _ bhi (by omega)).symm

theorem matchedSum_eq_refMatched (a b : Text)
    (hnj : ∀ c, popular b c = false) (alo ahi blo bhi : Nat)
    (hb : bhi ≤ b.length) :
    matchedSum a b alo ahi blo bhi = refMatched a b alo ahi blo bhi :=
  matchedSumGo_eq_refMatchedGo a b hnj _ alo ahi blo bhi hb

/-- Below the autojunk threshold no element is popular. -/
theorem popular_short {b : Text} (h : b.length < 200) (c : Char) :
    popular b c = false := by
  unfold popular
  rw [decide_eq_false (by omega)]
  rfl

/-- On the self-comparison the matched total is the whole length. -/
theorem matchedSum_self (x : Text) :
    matchedSum x x 0 x.length 0 x.length = x.length := by
  rw [matchedSum, matchedSumGo_succ, find_self x,
    mk_besti, mk_bestj, mk_bestsize]
  by_cases hn : x.length = 0
  · rw [if_pos hn]
    omega
  · rw [if_neg hn, if_neg (by omega), if_neg (by omega)]
    omega

theorem matchedSum_left_nil (b : Text) :
    matchedSum [] b 0 0 0 b.length = 0 := rfl

theorem b2j_nil (c : Char) : b2j [] c = [] := rfl

theorem candList_right_nil (a : Text) (alo ahi blo bhi : Nat) :
    candList a [] alo ahi blo bhi = [] := by
  rw [candList]
  rw [flatMapCongr (rangeList alo ahi) (candRow a [] alo blo bhi)
    (fun _ => ([] : List (Nat × Nat × Nat))) (fun i _ => rfl)]
  induction rangeList alo ahi with
  | nil => rfl
  | cons y ys ih => rw [List.flatMap_cons, ih]; rfl

theorem find_right_nil (a : Text) (alo ahi : Nat) :
    find_longest_match a [] alo ahi 0 0 = ⟨alo, 0, 0⟩ := by
  rw [find_longest_match, extendUpperJunk_eq, extendLowerJunk_eq, dp_best_eq,
    candList_right_nil]
  rw [show selectBest ⟨alo, 0, 0⟩ [] = ⟨alo, 0, 0⟩ from rfl]
  rw [extendLower_stuck (by rintro ⟨h1, h2, -⟩; omega),
    extendUpper_stuck (by rintro ⟨h1, h2, -⟩; omega)]

theorem matchedSum_right_nil (a : Text) :
    matchedSum a [] 0 a.length 0 0 = 0 := by
  rw [matchedSum, matchedSumGo_succ, find_right_nil,
    mk_bestsize]
  rw [if_pos rfl]

/-! ### Helper lemmas for the preprocessing stage -/
theorem windowVals_one (img : GrayImage) (r c : Nat)
    (hr : r < img.h) (hc : c < img.w) :
    windowVals img 1 r c = [img.px r c] := by
  unfold windowVals
  have h1 : List.range 1 = [0] := rfl
  simp only [h1, List.flatMap_cons, List.flatMap_nil,
    List.filterMap_cons, List.filterMap_nil]
  norm_num [hr, hc]

theorem dilate_one_px (img : GrayImage) (r c : Nat)
    (hr : r < img.h) (hc : c < img.w) :
    (dilate 1 img).px r c = img.px r c := by
  show (windowVals img 1 r c).foldl max 0 = img.px r c
  rw [windowVals_one img r c hr hc]
  simp

theorem erode_one_px (img : GrayImage) (r c : Nat)
    (hr : r < img.h) (hc : c < img.w) (hb : img.px r c ≤ 255) :
    (erode 1 img).px r c = img.px r c := by
  show (windowVals img 1 r c).foldl min 255 = img.px r c
  rw [windowVals_one img r c hr hc]
  simp
  omega

theorem gray_le_255 (img : ColorImage) (himg : img.wf) :
    ∀ r < img.h, ∀ c < img.w, (cvtColorBGR2GRAY img).px r c ≤ 255 := by
  intro r hr c hc
  obtain ⟨h1, h2, h3⟩ := himg r hr c hc
  show (1868 * (img.px r c).1 + 9617 * (img.px r c).2.1 +
    4899 * (img.px r c).2.2 + 8192) / 16384 ≤ 255
  omega

theorem pixList_congruent {g1 g2 : GrayImage} (hh : g1.h = g2.h)
    (hw : g1.w = g2.w)
    (hp : ∀ r < g1.h, ∀ c < g1.w, g1.px r c = g2.px r c) :
    pixList g1 = pixList g2 := by
  unfold pixList
  rw [← hh, ← hw]
  refine flatMapCongr _ _ _ ?_
  intro r hr
  refine mapCongr _ _ _ ?_
  intro c hc
  exact hp r (List.mem_range.mp hr) c (List.mem_range.mp hc)

theorem erode_dilate_one_px (img : GrayImage)
    (hb : ∀ r < img.h, ∀ c < img.w, img.px r c ≤ 255) :
    ∀ r < img.h, ∀ c < img.w,
      (erode 1 (dilate 1 img)).px r c = img.px r c := by
  intro r hr c hc
  have hd : (dilate 1 img).px r c = img.px r c := dilate_one_px img r c hr hc
  have he : (erode 1 (dilate 1 img)).px r c = (dilate 1 img).px r c := by
    refine erode_one_px (dilate 1 img) r c hr hc ?_
    rw [hd]; exact hb r hr c hc
  rw [he, hd]

theorem pixList_erode_dilate (img : GrayImage)
    (hb : ∀ r < img.h, ∀ c < img.w, img.px r c ≤ 255) :
    pixList (erode 1 (dilate 1 img)) = pixList img :=
  pixList_congruent rfl rfl (erode_dilate_one_px img hb)

theorem otsu_erode_dilate (img : GrayImage)
    (hb : ∀ r < img.h, ∀ c < img.w, img.px r c ≤ 255) :
    otsuThreshold (erode 1 (dilate 1 img)) = otsuThreshold img := by
  unfold otsuThreshold
  rw [pixList_erode_dilate img hb]

/-! ## Claims -/
/-- C5: for every path, access validation performs three checks in the
fixed order existence, read permission, regular-file type, short-circuiting
on the first failure with a distinct reason for each; for a path that
exists, is readable, and is a regular file, it returns `true`. -/
theorem spec_C5 (f : FileInfo) :
    (f.pathExists = false →
      check_file_access f = (false, ["File does not exist."])) ∧
    (f.pathExists = true → f.readable = false →
      check_file_access f =
        (false, ["File is not readable. Permission denied."])) ∧
    (f.pathExists = true → f.readable = true → S_ISREG f.mode = false →
      (check_file_access f).1 = false ∧
      "File is not a regular file." ∈ (check_file_access f).2) ∧
    (f.pathExists = true → f.readable = true → S_ISREG f.mode = true →
      (check_file_access f).1 = true) ∧
    ("File does not exist." ≠ "File is not readable. Permission denied." ∧
      "File does not exist." ≠ "File is not a regular file." ∧
      "File is not readable. Permission denied." ≠
        "File is not a regular file.") := by
  refine ⟨?_, ?_, ?_, ?_, by refine ⟨?_, ?_, ?_⟩ <;> decide⟩
  · intro h1
    simp [check_file_access, h1]
  · intro h1 h2
    simp [check_file_access, h1, h2]
  · intro h1 h2 h3
    simp [check_file_access, h1, h2, h3]
  · intro h1 h2 h3
    simp [check_file_access, h1, h2, h3]

/-- C5 witness: a missing file is rejected with the existence reason. -/
theorem spec_C5_witness :
    check_file_access ⟨false, true, 33188⟩ =
      (false, ["File does not exist."]) :=
  (spec_C5 ⟨false, true, 33188⟩).1 rfl

/-- C4 (amended): all pipeline failures surface to the caller as a single
error kind (`RuntimeError`), unchanged except for a fixed prefix naming the
operation — `process_image` failures carry `"Failed to process image: "`
and `save_to_pdf` failures carry `"Failed to save PDF: "`; within
`process_image` the access, decode and recognition stages are
distinguished only by the embedded message text, not by a distinct error
kind. -/
theorem spec_C4 :
    (∀ (f : FileInfo) (d : Option ColorImage)
        (engine : GrayImage → Except String String) (msg : String),
      process_image f d engine = Except.error msg →
      ∃ rest, msg = "Failed to process image: " ++ rest) ∧
    (∀ (fs : FS) (now : Stamp) (ioErr : Option String) (text dir msg : String),
      save_to_pdf fs now ioErr text dir = Except.error msg →
      ∃ rest, msg = "Failed to save PDF: " ++ rest) := by
  constructor
  · intro f d engine msg h
    unfold process_image at h
    split at h
    · simp only [Except.error.injEq] at h
      exact ⟨_, h.symm⟩
    · split at h
      · simp only [Except.error.injEq] at h
        exact ⟨_, h.symm⟩
      · split at h
        · simp only [Except.error.injEq] at h
          exact ⟨_, h.symm⟩
        · simp at h
  · intro fs now ioErr text dir msg h
    unfold save_to_pdf at h
    split at h
    · simp only [Except.error.injEq] at h
      exact ⟨_, h.symm⟩
    · simp at h

/-- C4 counterexample: two different failing components — access
validation on one input, the recognition engine on another — produce the
very same observable error value, so the error the caller observes does
not identify which component failed, and no component-specific error kind
exists. -/
theorem spec_C4_cex :
    (check_file_access ⟨false, true, 33188⟩).1 = false ∧
    (check_file_access ⟨true, true, 33188⟩).1 = true ∧
    process_image ⟨false, true, 33188⟩ none (fun _ => Except.ok "text") =
      Except.error "Failed to process image: File is not accessible." ∧
    process_image ⟨true, true, 33188⟩ (some ⟨1, 1, fun _ _ => (0, 0, 0)⟩)
        (fun _ => Except.error "File is not accessible.") =
      Except.error "Failed to process image: File is not accessible." :=
  ⟨rfl, rfl, rfl, rfl⟩

/-- C4 witness: the amended prefix property at a concrete failure. -/
theorem spec_C4_witness :
    ∃ rest, "Failed to process image: File is not accessible." =
      "Failed to process image: " ++ rest :=
  spec_C4.1 ⟨false, true, 33188⟩ none (fun _ => Except.ok "text") _ rfl

/-- C6: for every file that passes the three access checks but whose
contents cannot be decoded as an image (`cv2.imread` returns `None`),
access validation succeeds, and processing fails with the decode-failure
error; no text is produced. -/
theorem spec_C6 (f : FileInfo) (engine : GrayImage → Except String String)
    (h1 : f.pathExists = true) (h2 : f.readable = true)
    (h3 : S_ISREG f.mode = true) :
    (check_file_access f).1 = true ∧
    process_image f none engine = Except.error
      ("Failed to process image: " ++
        "Failed to read image. The file may be inaccessible or corrupted.") ∧
    ∀ t, process_image f none engine ≠ Except.ok t := by
  have hacc : (check_file_access f).1 = true := by
    simp [check_file_access, h1, h2, h3]
  have hproc : process_image f none engine = Except.error
      ("Failed to process image: " ++
        "Failed to read image. The file may be inaccessible or corrupted.") := by
    unfold process_image
    rw [hacc]
    simp
  refine ⟨hacc, hproc, ?_⟩
  intro t
  rw [hproc]
  simp

/-- C6 witness: a concrete accessible-but-undecodable file. -/
theorem spec_C6_witness :
    process_image ⟨true, true, 33188⟩ none (fun _ => Except.ok "text") =
      Except.error
        ("Failed to process image: " ++
          "Failed to read image. The file may be inaccessible or corrupted.") :=
  (spec_C6 ⟨true, true, 33188⟩ (fun _ => Except.ok "text") rfl rfl rfl).2.1

/-- C7: preprocessing applies exactly grayscale conversion, a 1×1 dilation,
a 1×1 erosion (dilate-then-erode, one iteration each), then global
binarization with the fixed value 128 and Otsu selection, in this order;
the supplied fixed threshold is superseded by Otsu's automatically selected
split point, and the 1×1 morphology steps are pixel-preserving no-ops on
the image domain. -/
theorem spec_C7 (img : ColorImage) :
    preprocessPipe img =
      thresholdBinaryOtsu (erode 1 (dilate 1 (cvtColorBGR2GRAY img))) 128 255 ∧
    (∀ t, thresholdBinaryOtsu (erode 1 (dilate 1 (cvtColorBGR2GRAY img))) t 255 =
      thresholdBinaryOtsu (erode 1 (dilate 1 (cvtColorBGR2GRAY img))) 128 255) ∧
    (img.wf → ∀ r < img.h, ∀ c < img.w,
      (preprocessPipe img).px r c =
        (thresholdBinaryOtsu (cvtColorBGR2GRAY img) 128 255).px r c) := by
  refine ⟨rfl, fun t => rfl, ?_⟩
  intro hwf r hr c hc
  have hb := gray_le_255 img hwf
  show (if otsuThreshold (erode 1 (dilate 1 (cvtColorBGR2GRAY img))) <
      (erode 1 (dilate 1 (cvtColorBGR2GRAY img))).px r c then 255 else 0) =
    (if otsuThreshold (cvtColorBGR2GRAY img) <
      (cvtColorBGR2GRAY img).px r c then 255 else 0)
  rw [otsu_erode_dilate _ hb, erode_dilate_one_px _ hb r hr c hc]

/-- C7 witness: the pipeline evaluated at a concrete valid image. -/
theorem spec_C7_witness :
    (preprocessPipe blackPixel).px 0 0 =
      (thresholdBinaryOtsu (cvtColorBGR2GRAY blackPixel) 128 255).px 0 0 :=
  (spec_C7 blackPixel).2.2
    (fun r _ c _ => ⟨Nat.zero_le _, Nat.zero_le _, Nat.zero_le _⟩)
    0 (by decide) 0 (by decide)

/-- C8 (amended): for every input image, every pixel of the preprocessed
output is one of the two intensities 0 and 255, so the output is two-level
with at most two distinct intensity values. -/
theorem spec_C8 (img : ColorImage) : ∀ r c,
    (preprocessPipe img).px r c = 0 ∨ (preprocessPipe img).px r c = 255 := by
  intro r c
  have : (preprocessPipe img).px r c =
      (if otsuThreshold (erode 1 (dilate 1 (cvtColorBGR2GRAY img))) <
        (erode 1 (dilate 1 (cvtColorBGR2GRAY img))).px r c then 255 else 0) := rfl
  rw [this]
  by_cases h : otsuThreshold (erode 1 (dilate 1 (cvtColorBGR2GRAY img))) <
      (erode 1 (dilate 1 (cvtColorBGR2GRAY img))).px r c
  · rw [if_pos h]; right; rfl
  · rw [if_neg h]; left; rfl

/-- C8 counterexample: a valid decodable image (1×1, all black) whose
preprocessed output has exactly one distinct intensity value, not two. -/
theorem spec_C8_cex :
    blackPixel.wf ∧
    (distinctVals (preprocessPipe blackPixel)).length = 1 ∧
    (distinctVals (preprocessPipe blackPixel)).length ≠ 2 := by
  exact ⟨fun r _ c _ => ⟨Nat.zero_le _, Nat.zero_le _, Nat.zero_le _⟩,
    by decide, by decide⟩

/-- C10: when both arguments are empty strings the similarity is 100.0,
not 0.0 (the `len(a)+len(b) == 0` branch of `difflib`'s ratio yields 1.0,
scaled by 100). -/
theorem spec_C10 : calculate_similarity "" "" = 100 := by
  rw [calculate_similarity, seqRatio]
  norm_num [calcRatio]

/-! ### Similarity facts used by the similarity claims -/
theorem toList_length_ne {x : String} (hx : x ≠ "") : x.toList.length ≠ 0 := by
  intro h
  refine hx ?_
  have hl : x.toList = [] := List.length_eq_zero.mp h
  obtain ⟨d⟩ := x
  have hd : d = [] := hl
  rw [hd]

theorem sim_self (x : String) (hx : x ≠ "") : calculate_similarity x x = 100 := by
  have hn : x.toList.length ≠ 0 := toList_length_ne hx
  rw [calculate_similarity, seqRatio, matchedSum_self, calcRatio]
  rw [if_neg (by omega)]
  have h2 : ((x.toList.length + x.toList.length : Nat) : ℚ)
      = 2 * (x.toList.length : ℚ) := by
    push_cast
    ring
  have h3 : (x.toList.length : ℚ) ≠ 0 := Nat.cast_ne_zero.mpr hn
  rw [h2, div_self (mul_ne_zero two_ne_zero h3), one_mul]

theorem sim_empty_right (x : String) (hx : x ≠ "") :
    calculate_similarity x "" = 0 := by
  have hn : x.toList.length ≠ 0 := toList_length_ne hx
  rw [calculate_similarity, seqRatio,
    show ("" : String).toList = ([] : List Char) from rfl,
    show ([] : List Char).length = 0 from rfl, matchedSum_right_nil, calcRatio]
  rw [if_neg (by omega)]
  norm_num

theorem sim_empty_left (x : String) (hx : x ≠ "") :
    calculate_similarity "" x = 0 := by
  have hn : x.toList.length ≠ 0 := toList_length_ne hx
  rw [calculate_similarity, seqRatio,
    show ("" : String).toList = ([] : List Char) from rfl,
    show ([] : List Char).length = 0 from rfl, matchedSum_left_nil, calcRatio]
  rw [if_neg (by omega)]
  norm_num

set_option maxRecDepth 8000 in
theorem c1_implVal :
    matchedSum ['a'] ('b' :: List.replicate 199 'a') 0 1 0 200 = 0 := by decide

set_option maxRecDepth 8000 in
theorem c1_refVal :
    refMatched ['a'] ('b' :: List.replicate 199 'a') 0 1 0 200 = 1 := by decide

/-- C1 (amended): the implementation equals the recursive
longest-contiguous-matching-block reference whenever the candidate text is
shorter than 200 characters (below `SequenceMatcher`'s autojunk
threshold). -/
theorem spec_C1 (reference candidate : String) (h : candidate.length < 200) :
    calculate_similarity reference candidate = refSimilarity reference candidate := by
  have h2 : candidate.toList.length < 200 := h
  rw [calculate_similarity, seqRatio, refSimilarity,
    matchedSum_eq_refMatched reference.toList candidate.toList
      (popular_short h2) 0 reference.toList.length 0 candidate.toList.length
      (le_refl _)]

/-- C1 counterexample: on `("a", cexLong)` the implementation returns `0`
(the popular element `a` is removed from the index, so no match is found),
while the reference algorithm matches the common `"a"` and returns
`200/201`. -/
theorem spec_C1_cex :
    calculate_similarity "a" cexLong ≠ refSimilarity "a" cexLong := by
  intro hEq
  rw [calculate_similarity, seqRatio, refSimilarity,
    show ("a" : String).toList = ['a'] from rfl,
    show cexLong.toList = 'b' :: List.replicate 199 'a' from rfl,
    show (['a'] : List Char).length = 1 from rfl,
    show ('b' :: List.replicate 199 'a').length = 200 from rfl,
    c1_implVal, c1_refVal] at hEq
  norm_num [calcRatio] at hEq

theorem spec_C1_witness :
    ("b" : String).length < 200 ∧
      calculate_similarity "ab" "b" = refSimilarity "ab" "b" :=
  ⟨by decide, spec_C1 "ab" "b" (by decide)⟩

theorem c2_fwdVal :
    matchedSum ['a', 'b', 'a'] ['b', 'c', 'a'] 0 3 0 3 = 1 := by decide

theorem c2_bwdVal :
    matchedSum ['b', 'c', 'a'] ['a', 'b', 'a'] 0 3 0 3 = 2 := by decide

/-- C2 (amended): the similarity is symmetric when the two texts are equal
or one of them is empty. -/
theorem spec_C2 (a b : String) (h : a = b ∨ a = "" ∨ b = "") :
    calculate_similarity a b = calculate_similarity b a := by
  rcases h with rfl | rfl | rfl
  · rfl
  · by_cases hb : b = ""
    · rw [hb]
    · rw [sim_empty_left b hb, sim_empty_right b hb]
  · by_cases ha : a = ""
    · rw [ha]
    · rw [sim_empty_right a ha, sim_empty_left a ha]

/-- C2 counterexample: `similarity("aba", "bca") = 100/3` but
`similarity("bca", "aba") = 200/3`; `SequenceMatcher` is not symmetric. -/
theorem spec_C2_cex :
    calculate_similarity "aba" "bca" ≠ calculate_similarity "bca" "aba" := by
  intro hEq
  rw [calculate_similarity, calculate_similarity, seqRatio, seqRatio,
    show ("aba" : String).toList = ['a', 'b', 'a'] from rfl,
    show ("bca" : String).toList = ['b', 'c', 'a'] from rfl,
    show (['a', 'b', 'a'] : List Char).length = 3 from rfl,
    show (['b', 'c', 'a'] : List Char).length = 3 from rfl,
    c2_fwdVal, c2_bwdVal] at hEq
  norm_num [calcRatio] at hEq

theorem spec_C2_witness :
    (("xy" : String) = "xy" ∨ ("xy" : String) = "" ∨ ("xy" : String) = "") ∧
      calculate_similarity "xy" "xy" = calculate_similarity "xy" "xy" :=
  ⟨Or.inl rfl, spec_C2 "xy" "xy" (Or.inl rfl)⟩

/-- C3: for every non-empty text `x`, `similarity(x, x) = 100` and
`similarity(x, "") = 0` (both hold even above the autojunk threshold). -/
theorem spec_C3 (x : String) (hx : x ≠ "") :
    calculate_similarity x x = 100 ∧ calculate_similarity x "" = 0 :=
  ⟨sim_self x hx, sim_empty_right x hx⟩

theorem spec_C3_witness :
    ("a" : String) ≠ "" ∧
      (calculate_similarity "a" "a" = 100 ∧ calculate_similarity "a" "" = 0) :=
  ⟨by decide, spec_C3 "a" (by decide)⟩

end HTR
